import Mathlib

/-!
Verification of the `ConcurrenceBasedClustering` Go package against its
design specification.

Embedding conventions:
* Go `map[uint]V` values are embedded as association lists `List (ℕ × V)`
  (`alookup` is map indexing; absence of a key is `none`).  All map
  computations settled below are insensitive to Go's nondeterministic map
  iteration order, so association lists fix one order without loss.
* Go `float64` arithmetic is embedded as exact rational arithmetic over `ℚ`
  (every numerical discrepancy established below is exact and large, far
  beyond any rounding effect), except for `math.Erf`, which is embedded over
  `ℝ` as the genuine Gauss error function.
* Functions that can call `log.Fatal` return `Option`/`Except` values, with
  `none` / `.error .fatal` marking the fatal exit; `.error .fuelOut` marks a
  recursion that has not returned within the given fuel bound, so an
  `= .error .fuelOut` result for every fuel proves the Go code never returns.
-/

namespace DBC

/-- Association-list lookup, the embedding of Go map indexing
`v, exists := m[k]`. -/
def alookup {α : Type} : List (ℕ × α) → ℕ → Option α
  | [], _ => none
  | (k, v) :: t, u => if k = u then some v else alookup t u

/-- The embedding of Go map indexing with default (`m[k]` is the zero value
when the key is absent). -/
def alookupD {α : Type} (l : List (ℕ × α)) (u : ℕ) (d : α) : α :=
  (alookup l u).getD d

theorem alookup_eq_none {α : Type} (l : List (ℕ × α)) (k : ℕ) :
    alookup l k = none ↔ k ∉ l.map Prod.fst := by
  induction l with
  | nil => simp [alookup]
  | cons p t ih =>
    obtain ⟨k2, v⟩ := p
    by_cases h : k2 = k
    · subst h
      simp [alookup]
    · rw [show alookup ((k2, v) :: t) k = alookup t k by simp [alookup, h]]
      simp only [List.map_cons, List.mem_cons, ih]
      constructor
      · rintro hk (h1 | h1)
        · exact h h1.symm
        · exact hk h1
      · exact fun hk h1 => hk (Or.inr h1)

theorem alookup_isSome_iff_mem {α : Type} (l : List (ℕ × α)) (k : ℕ) :
    (alookup l k).isSome ↔ k ∈ l.map Prod.fst := by
  rw [Option.isSome_iff_ne_none, Ne, alookup_eq_none, not_not]

theorem alookup_mem {α : Type} {l : List (ℕ × α)} {k : ℕ} {v : α}
    (h : alookup l k = some v) : (k, v) ∈ l := by
  induction l with
  | nil => simp [alookup] at h
  | cons p t ih =>
    obtain ⟨k2, w⟩ := p
    by_cases hk : k2 = k
    · subst hk
      simp [alookup] at h
      simp [h]
    · simp [alookup, hk] at h
      exact List.mem_cons_of_mem _ (ih h)

theorem mem_alookup {α : Type} {l : List (ℕ × α)} {k : ℕ} {v : α}
    (hnd : (l.map Prod.fst).Nodup) (h : (k, v) ∈ l) : alookup l k = some v := by
  induction l with
  | nil => simp at h
  | cons p t ih =>
    obtain ⟨k2, w⟩ := p
    simp only [List.map_cons, List.nodup_cons] at hnd
    rcases List.mem_cons.mp h with h1 | h1
    · rw [show k2 = k from (Prod.mk.injEq .. ▸ h1).1.symm] at hnd ⊢
      simp [alookup, (Prod.mk.injEq .. ▸ h1).2]
    · have hk : k2 ≠ k := by
        rintro rfl
        exact hnd.1 (List.mem_map.mpr ⟨(k2, v), h1, rfl⟩)
      simpa [alookup, hk] using ih hnd.2 h1

/-- `struct ConcurrenceModel`: `n` is the node count, `concurrences` the
symmetric sparse weight matrix.  The cached fields of the Go struct
(`sumConcurrences`, `sumConcurrencesOf`, `meanConcurrenceOf`,
`varConcurrenceOf`) are recomputed by the definitions below exactly as the
Go constructor computes them, so they are embedded as derived functions. -/
structure ConcurrenceModel where
  n : ℕ
  concurrences : List (ℕ × List (ℕ × ℕ))
deriving DecidableEq

/-- `func (cm ConcurrenceModel) GetConcurrencesOf`: the stored row of a node,
empty when absent. -/
def ConcurrenceModel.GetConcurrencesOf (cm : ConcurrenceModel) (i : ℕ) :
    List (ℕ × ℕ) :=
  (alookup cm.concurrences i).getD []

/-- `func (cm ConcurrenceModel) GetConcurrence`: the weight of an edge, `0`
when absent. -/
def ConcurrenceModel.GetConcurrence (cm : ConcurrenceModel) (i j : ℕ) : ℕ :=
  (alookup (cm.GetConcurrencesOf i) j).getD 0

/-- `func (cm ConcurrenceModel) GetN`. -/
def ConcurrenceModel.GetN (cm : ConcurrenceModel) : ℕ := cm.n

/-- Sum of the weights stored in one sparse row (the inner loop of
`getSumConcurrencesOf`). -/
def rowSum (row : List (ℕ × ℕ)) : ℕ := (row.map Prod.snd).sum

/-- `func getSumConcurrencesOf`: per-node sums of incident stored weights. -/
def getSumConcurrencesOf (n : ℕ) (concurrences : List (ℕ × List (ℕ × ℕ))) :
    List ℕ :=
  (List.range n).map (fun u => rowSum ((alookup concurrences u).getD []))

/-- The cached `cm.sumConcurrencesOf[u]` of the Go struct. -/
def ConcurrenceModel.sumConcurrencesOf (cm : ConcurrenceModel) (u : ℕ) : ℕ :=
  rowSum (cm.GetConcurrencesOf u)

/-- The cached `cm.sumConcurrences` of the Go struct (step 3 of
`SetConcurrences`). -/
def ConcurrenceModel.sumConcurrences (cm : ConcurrenceModel) : ℕ :=
  ((List.range cm.n).map cm.sumConcurrencesOf).sum

/-- The cached `cm.meanConcurrenceOf[u]` (step 4 of `SetConcurrences`). -/
def ConcurrenceModel.meanConcurrenceOf (cm : ConcurrenceModel) (u : ℕ) : ℚ :=
  if cm.sumConcurrencesOf u = 0 then 0
  else (cm.sumConcurrencesOf u : ℚ) / ((cm.GetConcurrencesOf u).length : ℚ)

/-- The cached `cm.varConcurrenceOf[u]` (step 5 of `SetConcurrences`). -/
def ConcurrenceModel.varConcurrenceOf (cm : ConcurrenceModel) (u : ℕ) : ℚ :=
  if cm.sumConcurrencesOf u = 0 then 0
  else ((cm.GetConcurrencesOf u).map
      (fun p => ((p.2 : ℚ) - cm.meanConcurrenceOf u) ^ 2)).sum /
    ((cm.GetConcurrencesOf u).length : ℚ)

/-- The running `maxNodeID` computed by `func verifyConcurrences`: the fold
starts at `0` and takes the max over every outer and inner key. -/
def maxNodeID (concurrences : List (ℕ × List (ℕ × ℕ))) : ℕ :=
  concurrences.foldl
    (fun acc p => p.2.foldl (fun a q => max a q.1) (max acc p.1)) 0

/-- The symmetry check of `func verifyConcurrences`: every stored entry
`(u, v) ↦ w` must have a stored mirror entry `(v, u) ↦ w`. -/
def symmetricCheck (concurrences : List (ℕ × List (ℕ × ℕ))) : Bool :=
  concurrences.all (fun p => p.2.all (fun q =>
    match alookup concurrences q.1 with
    | none => false
    | some rv => decide (alookup rv p.1 = some q.2)))

/-- `func verifyConcurrences` as a boolean: `false` means the Go function
calls `log.Fatalln` (either on an asymmetric entry or on the final
`maxNodeID >= n` check). -/
def verifyConcurrences (n : ℕ) (concurrences : List (ℕ × List (ℕ × ℕ))) :
    Bool :=
  symmetricCheck concurrences && decide (maxNodeID concurrences < n)

/-- `func (cm *ConcurrenceModel) SetConcurrences` (composed with
`NewConcurrenceModel`): validates the input and constructs the model;
`none` is the fatal exit of `verifyConcurrences`. -/
def SetConcurrences (n : ℕ) (concurrences : List (ℕ × List (ℕ × ℕ))) :
    Option ConcurrenceModel :=
  if verifyConcurrences n concurrences then
    some ⟨n, concurrences⟩
  else none

/-- The stored mapping is symmetric: every stored entry `(u, v) ↦ w` has a
stored mirror entry `(v, u) ↦ w` (the property `verifyConcurrences`
checks entrywise). -/
def SymmetricMap (m : List (ℕ × List (ℕ × ℕ))) : Prop :=
  ∀ p ∈ m, ∀ q ∈ p.2,
    Option.bind (alookup m q.1) (fun rv => alookup rv p.1) = some q.2

instance (m : List (ℕ × List (ℕ × ℕ))) : Decidable (SymmetricMap m) := by
  unfold SymmetricMap
  infer_instance

/-- Every node id referenced by the mapping (outer or inner key) is `< n`. -/
def RefIdsBound (m : List (ℕ × List (ℕ × ℕ))) (n : ℕ) : Prop :=
  ∀ p ∈ m, p.1 < n ∧ ∀ q ∈ p.2, q.1 < n

instance (m : List (ℕ × List (ℕ × ℕ))) (n : ℕ) :
    Decidable (RefIdsBound m n) := by
  unfold RefIdsBound
  infer_instance

theorem symmetricCheck_iff (m : List (ℕ × List (ℕ × ℕ))) :
    symmetricCheck m = true ↔ SymmetricMap m := by
  unfold symmetricCheck SymmetricMap
  simp only [List.all_eq_true]
  refine ⟨fun h p hp q hq => ?_, fun h p hp q hq => ?_⟩
  · have h2 := h p hp q hq
    cases hrv : alookup m q.1 with
    | none => rw [hrv] at h2; simp at h2
    | some rv => rw [hrv] at h2; simpa using h2
  · have h2 := h p hp q hq
    cases hrv : alookup m q.1 with
    | none => rw [hrv] at h2; simp at h2
    | some rv => rw [hrv] at h2; simpa using h2

theorem row_foldl_max_lt_iff (row : List (ℕ × ℕ)) (b n : ℕ) :
    row.foldl (fun a q => max a q.1) b < n ↔ b < n ∧ ∀ q ∈ row, q.1 < n := by
  induction row generalizing b with
  | nil => simp
  | cons q t ih =>
    simp only [List.foldl_cons, ih, max_lt_iff, List.mem_cons]
    constructor
    · rintro ⟨⟨hb, hq⟩, ht⟩
      exact ⟨hb, fun x hx => hx.elim (fun h => h ▸ hq) (ht x)⟩
    · rintro ⟨hb, ht⟩
      exact ⟨⟨hb, ht q (Or.inl rfl)⟩, fun x hx => ht x (Or.inr hx)⟩

theorem maxNodeID_lt_iff (m : List (ℕ × List (ℕ × ℕ))) (n : ℕ) :
    maxNodeID m < n ↔ 0 < n ∧ RefIdsBound m n := by
  unfold maxNodeID RefIdsBound
  suffices h : ∀ (l : List (ℕ × List (ℕ × ℕ))) (b : ℕ),
      l.foldl (fun acc p => p.2.foldl (fun a q => max a q.1) (max acc p.1)) b < n
        ↔ b < n ∧ ∀ p ∈ l, p.1 < n ∧ ∀ q ∈ p.2, q.1 < n by
    exact h m 0
  intro l
  induction l with
  | nil => simp
  | cons p t ih =>
    intro b
    simp only [List.foldl_cons, ih, row_foldl_max_lt_iff, max_lt_iff,
      List.mem_cons]
    constructor
    · rintro ⟨⟨⟨hb, hp⟩, hrow⟩, ht⟩
      exact ⟨hb, fun x hx => hx.elim (fun h => h ▸ ⟨hp, hrow⟩) (ht x)⟩
    · rintro ⟨hb, ht⟩
      exact ⟨⟨⟨hb, (ht p (Or.inl rfl)).1⟩, (ht p (Or.inl rfl)).2⟩,
        fun x hx => ht x (Or.inr hx)⟩

theorem verifyConcurrences_iff (n : ℕ) (m : List (ℕ × List (ℕ × ℕ))) :
    verifyConcurrences n m = true ↔
      SymmetricMap m ∧ 0 < n ∧ RefIdsBound m n := by
  unfold verifyConcurrences
  rw [Bool.and_eq_true, symmetricCheck_iff, decide_eq_true_iff,
    maxNodeID_lt_iff]

theorem sum_map_range (f : ℕ → ℕ) (n : ℕ) :
    ((List.range n).map f).sum = ∑ u in Finset.range n, f u := by
  induction n with
  | zero => simp
  | succ k ih =>
    rw [List.range_succ, List.map_append, List.sum_append,
      Finset.sum_range_succ, ih]
    simp

theorem rowSum_eq_sum_range {row : List (ℕ × ℕ)} {n : ℕ}
    (hnd : (row.map Prod.fst).Nodup) (hb : ∀ q ∈ row, q.1 < n) :
    rowSum row = ∑ v in Finset.range n, (alookup row v).getD 0 := by
  induction row with
  | nil => simp [rowSum, alookup]
  | cons q t ih =>
    obtain ⟨k, w⟩ := q
    simp only [List.map_cons, List.nodup_cons] at hnd
    have hk : k ∈ Finset.range n := Finset.mem_range.mpr (hb (k, w) (by simp))
    have hlt : ∀ q ∈ t, q.1 < n := fun q hq => hb q (List.mem_cons_of_mem _ hq)
    have htk : alookup t k = none := (alookup_eq_none t k).mpr hnd.1
    have hrs : rowSum ((k, w) :: t) = w + rowSum t := by
      simp [rowSum]
    have hpt : ∀ v ∈ Finset.range n, (alookup ((k, w) :: t) v).getD 0 =
        (if k = v then w else 0) + (alookup t v).getD 0 := by
      intro v hv
      by_cases hkv : k = v
      · subst hkv
        simp [alookup, htk]
      · simp [alookup, hkv]
    rw [hrs, ih hnd.2 hlt, Finset.sum_congr rfl hpt, Finset.sum_add_distrib,
      Finset.sum_ite_eq, if_pos hk]

/-- C7 counterexample: with node count `0` and the empty (vacuously
symmetric, in-range) weight mapping, `SetConcurrences` nevertheless fails
fatally, because `verifyConcurrences` initialises its running `maxNodeID`
to `0` and finally requires `maxNodeID < n`. -/
theorem setConcurrences_rejects_empty_graph :
    SetConcurrences 0 [] = none ∧ SymmetricMap [] ∧ RefIdsBound [] 0 := by
  refine ⟨by decide, ?_, ?_⟩
  · intro p hp
    simp at hp
  · intro p hp
    simp at hp

/-- C7 (amended): graph construction `SetConcurrences` fails fatally iff the
weight mapping is asymmetric, references a node id `≥ n`, or `n = 0` (the
`maxNodeID ≥ n` check fires for `n = 0` even on the empty mapping, since the
running maximum starts at `0`); whenever it succeeds, the precomputed
per-node weight sums and the grand total equal the corresponding sums of the
stored weights. -/
theorem setConcurrences_characterization (n : ℕ)
    (m : List (ℕ × List (ℕ × ℕ))) (hnd : (m.map Prod.fst).Nodup)
    (hrows : ∀ p ∈ m, (p.2.map Prod.fst).Nodup) :
    (SetConcurrences n m = none ↔
      ¬(SymmetricMap m ∧ 0 < n ∧ RefIdsBound m n)) ∧
    (∀ cmv, SetConcurrences n m = some cmv →
      (∀ u, u < n → cmv.sumConcurrencesOf u =
        ∑ v in Finset.range n, cmv.GetConcurrence u v) ∧
      cmv.sumConcurrences =
        ∑ u in Finset.range n, ∑ v in Finset.range n, cmv.GetConcurrence u v) := by
  constructor
  · by_cases hv : verifyConcurrences n m = true
    · exact iff_of_false (by simp [SetConcurrences, hv])
        (not_not_intro ((verifyConcurrences_iff n m).mp hv))
    · exact iff_of_true (by simp [SetConcurrences, hv])
        (fun hc => hv ((verifyConcurrences_iff n m).mpr hc))
  · intro cmv hsome
    have hver : verifyConcurrences n m = true := by
      by_contra hv
      unfold SetConcurrences at hsome
      rw [if_neg hv] at hsome
      exact Option.noConfusion hsome
    have hcm : cmv = ⟨n, m⟩ := by
      unfold SetConcurrences at hsome
      rw [if_pos hver] at hsome
      exact (Option.some.injEq .. ▸ hsome).symm
    have hbound : RefIdsBound m n := ((verifyConcurrences_iff n m).mp hver).2.2
    subst hcm
    have hrow : ∀ u, u < n →
        ConcurrenceModel.sumConcurrencesOf ⟨n, m⟩ u =
          ∑ v in Finset.range n, ConcurrenceModel.GetConcurrence ⟨n, m⟩ u v := by
      intro u _
      unfold ConcurrenceModel.sumConcurrencesOf ConcurrenceModel.GetConcurrence
        ConcurrenceModel.GetConcurrencesOf
      cases hru : alookup m u with
      | none => simp [hru, rowSum, alookup]
      | some row =>
        simp only [hru, Option.getD_some]
        have hmem := alookup_mem hru
        exact rowSum_eq_sum_range (hrows (u, row) hmem)
          (fun q hq => (hbound (u, row) hmem).2 q hq)
    refine ⟨hrow, ?_⟩
    unfold ConcurrenceModel.sumConcurrences
    rw [sum_map_range]
    exact Finset.sum_congr rfl (fun u hu => hrow u (Finset.mem_range.mp hu))

/-- Witness for C7: concrete successful construction of a 2-node graph with
one symmetric edge of weight 5, via `setConcurrences_characterization`. -/
theorem setConcurrences_characterization_witness :
    SetConcurrences 2 [(0, [(1, 5)]), (1, [(0, 5)])] =
      some ⟨2, [(0, [(1, 5)]), (1, [(0, 5)])]⟩ ∧
    (⟨2, [(0, [(1, 5)]), (1, [(0, 5)])]⟩ :
        ConcurrenceModel).sumConcurrencesOf 0 =
      ∑ v in Finset.range 2,
        (⟨2, [(0, [(1, 5)]), (1, [(0, 5)])]⟩ :
          ConcurrenceModel).GetConcurrence 0 v := by
  have h := setConcurrences_characterization 2 [(0, [(1, 5)]), (1, [(0, 5)])]
    (by decide) (by decide)
  exact ⟨by decide,
    (h.2 ⟨2, [(0, [(1, 5)]), (1, [(0, 5)])]⟩ (by decide)).1 0 (by decide)⟩

/-- One iteration of step 1 of `GetCompleteCommunities`: marking the points
of one community; `none` is the fatal exit on a point `≥ n` or a point that
is already marked (assigned to an earlier community). -/
def markCommunity (n : ℕ) (marked : Finset ℕ) (c : Finset ℕ) :
    Option (Finset ℕ) :=
  if ∃ p ∈ c, n ≤ p ∨ p ∈ marked then none else some (marked ∪ c)

/-- The fold of `markCommunity` over the input communities (the outer loop of
step 1 of `GetCompleteCommunities`). -/
def markAll (n : ℕ) : List (Finset ℕ) → Finset ℕ → Option (Finset ℕ)
  | [], marked => some marked
  | c :: t, marked =>
    match markCommunity n marked c with
    | none => none
    | some m2 => markAll n t m2

/-- `func (cm ConcurrenceModel) GetCompleteCommunities`: copies the given
communities (fatally rejecting repeated or out-of-range points) and appends
one singleton community per still-unassigned node in ascending node order. -/
def ConcurrenceModel.GetCompleteCommunities (cm : ConcurrenceModel)
    (communities : List (Finset ℕ)) : Option (List (Finset ℕ)) :=
  match markAll cm.n communities ∅ with
  | none => none
  | some marked =>
    some (communities ++
      (((List.range cm.n).filter (fun i => i ∉ marked)).map (fun i => {i})))

/-- Union of a list of finite sets (the set of points marked after a
successful pass over the given communities). -/
def listUnion (l : List (Finset ℕ)) : Finset ℕ := l.foldr (· ∪ ·) ∅

theorem mem_listUnion {l : List (Finset ℕ)} {p : ℕ} :
    p ∈ listUnion l ↔ ∃ c ∈ l, p ∈ c := by
  induction l with
  | nil => simp [listUnion]
  | cons c t ih =>
    simp only [listUnion, List.foldr_cons, Finset.mem_union, List.mem_cons]
    rw [show List.foldr (· ∪ ·) ∅ t = listUnion t from rfl]
    constructor
    · rintro (h | h)
      · exact ⟨c, Or.inl rfl, h⟩
      · obtain ⟨d, hd, hp⟩ := ih.mp h
        exact ⟨d, Or.inr hd, hp⟩
    · rintro ⟨d, hd | hd, hp⟩
      · exact Or.inl (hd ▸ hp)
      · exact Or.inr (ih.mpr ⟨d, hd, hp⟩)

theorem markAll_eq_some_iff (n : ℕ) :
    ∀ (l : List (Finset ℕ)) (marked m2 : Finset ℕ),
      markAll n l marked = some m2 ↔
        ((∀ c ∈ l, ∀ p ∈ c, p < n) ∧ List.Pairwise Disjoint l ∧
          (∀ c ∈ l, Disjoint marked c) ∧ m2 = marked ∪ listUnion l) := by
  intro l
  induction l with
  | nil =>
    intro marked m2
    simp [markAll, listUnion, eq_comm]
  | cons c t ih =>
    intro marked m2
    by_cases hbad : ∃ p ∈ c, n ≤ p ∨ p ∈ marked
    · rw [show markAll n (c :: t) marked = none by
        simp [markAll, markCommunity, hbad]]
      obtain ⟨p, hpc, hp⟩ := hbad
      refine iff_of_false (by simp) ?_
      rintro ⟨hb, _, hdis, _⟩
      rcases hp with hp | hp
      · exact absurd (hb c (List.mem_cons_self c t) p hpc) (not_lt.mpr hp)
      · exact absurd hpc (Finset.disjoint_left.mp
          (hdis c (List.mem_cons_self c t)) hp)
    · rw [show markAll n (c :: t) marked = markAll n t (marked ∪ c) by
        simp [markAll, markCommunity, hbad]]
      push_neg at hbad
      rw [ih (marked ∪ c) m2]
      constructor
      · rintro ⟨hb, hpw, hdis, hm⟩
        refine ⟨?_, ?_, ?_, ?_⟩
        · intro d hd p hp
          rcases List.mem_cons.mp hd with hd | hd
          · exact lt_of_not_le ((hbad p (hd ▸ hp)).1
              |> fun h => by simpa using h)
          · exact hb d hd p hp
        · refine List.Pairwise.cons ?_ hpw
          intro d hd
          exact (Finset.disjoint_union_left.mp (hdis d hd)).2
        · intro d hd
          rcases List.mem_cons.mp hd with hd | hd
          · subst hd
            exact Finset.disjoint_left.mpr (fun p hp hpd => (hbad p hpd).2 hp)
          · exact (Finset.disjoint_union_left.mp (hdis d hd)).1
        · rw [hm]
          rw [show listUnion (c :: t) = c ∪ listUnion t from rfl]
          rw [Finset.union_assoc]
      · rintro ⟨hb, hpw, hdis, hm⟩
        refine ⟨fun d hd p hp => hb d (List.mem_cons_of_mem _ hd) p hp, ?_,
          ?_, ?_⟩
        · exact List.Pairwise.sublist (List.sublist_cons_self c t) hpw
        · intro d hd
          rw [Finset.disjoint_union_left]
          exact ⟨hdis d (List.mem_cons_of_mem _ hd),
            (List.pairwise_cons.mp hpw).1 d hd⟩
        · rw [hm]
          rw [show listUnion (c :: t) = c ∪ listUnion t from rfl]
          rw [Finset.union_assoc]

/-- C10: `GetCompleteCommunities` on the empty input yields exactly the `n`
singleton groups in ascending node order; it is idempotent (a successful
output is a fixed point); and it fatally rejects any input containing a node
id `≥ n` or assigning some node to two groups (two positionally distinct,
non-disjoint groups). -/
theorem getCompleteCommunities_spec (cm : ConcurrenceModel)
    (P : List (Finset ℕ)) :
    (cm.GetCompleteCommunities [] =
      some ((List.range cm.n).map (fun i => {i}))) ∧
    (∀ R, cm.GetCompleteCommunities P = some R →
      cm.GetCompleteCommunities R = some R) ∧
    (((∃ c ∈ P, ∃ p ∈ c, cm.n ≤ p) ∨ ¬ List.Pairwise Disjoint P) →
      cm.GetCompleteCommunities P = none) := by
  refine ⟨?_, ?_, ?_⟩
  · simp [ConcurrenceModel.GetCompleteCommunities, markAll]
  · intro R hR
    unfold ConcurrenceModel.GetCompleteCommunities at hR
    cases hma : markAll cm.n P ∅ with
    | none => rw [hma] at hR; simp at hR
    | some marked =>
      rw [hma] at hR
      simp only [Option.some.injEq] at hR
      obtain ⟨hbP, hpwP, -, hmrk⟩ := (markAll_eq_some_iff cm.n P ∅ marked).mp hma
      rw [Finset.empty_union] at hmrk
      subst hmrk
      set singles : List (Finset ℕ) :=
        ((List.range cm.n).filter (fun i => i ∉ listUnion P)).map
          (fun i => {i}) with hsingles
      have hbR : ∀ c ∈ R, ∀ p ∈ c, p < cm.n := by
        intro c hc p hp
        rw [← hR] at hc
        rcases List.mem_append.mp hc with hc | hc
        · exact hbP c hc p hp
        · obtain ⟨i, hi, rfl⟩ := List.mem_map.mp hc
          have hir : i ∈ List.range cm.n := List.mem_of_mem_filter hi
          rw [Finset.mem_singleton] at hp
          exact hp ▸ List.mem_range.mp hir
      have hpwS : List.Pairwise Disjoint singles := by
        rw [hsingles, List.pairwise_map]
        have h1 : List.Pairwise (· < ·)
            ((List.range cm.n).filter (fun i => i ∉ listUnion P)) :=
          List.Pairwise.sublist (List.filter_sublist _)
            (List.pairwise_lt_range cm.n)
        exact h1.imp (fun hab => Finset.disjoint_singleton.mpr
          (Nat.ne_of_lt hab))
      have hcross : ∀ a ∈ P, ∀ b ∈ singles, Disjoint a b := by
        intro a ha b hb
        rw [hsingles] at hb
        obtain ⟨i, hi, rfl⟩ := List.mem_map.mp hb
        have hnot : i ∉ listUnion P := by simpa using List.of_mem_filter hi
        exact Finset.disjoint_singleton_right.mpr
          (fun hia => hnot (mem_listUnion.mpr ⟨a, ha, hia⟩))
      have hpwR : List.Pairwise Disjoint R := by
        rw [← hR]
        rw [List.pairwise_append]
        exact ⟨hpwP, hpwS, hcross⟩
      have hmaR : markAll cm.n R ∅ = some (∅ ∪ listUnion R) :=
        (markAll_eq_some_iff cm.n R ∅ _).mpr
          ⟨hbR, hpwR, fun c _ => Finset.disjoint_empty_left c, rfl⟩
      have hcover : ∀ i ∈ List.range cm.n, i ∈ (∅ ∪ listUnion R : Finset ℕ) := by
        intro i hi
        rw [Finset.empty_union, ← hR]
        by_cases hiP : i ∈ listUnion P
        · obtain ⟨c, hc, hic⟩ := mem_listUnion.mp hiP
          exact mem_listUnion.mpr ⟨c, List.mem_append.mpr (Or.inl hc), hic⟩
        · have hmemS : ({i} : Finset ℕ) ∈ singles := by
            rw [hsingles]
            refine List.mem_map.mpr ⟨i, ?_, rfl⟩
            refine List.mem_filter.mpr ⟨hi, ?_⟩
            simpa using hiP
          exact mem_listUnion.mpr ⟨{i}, List.mem_append.mpr (Or.inr hmemS),
            Finset.mem_singleton_self i⟩
      have hfil : ((List.range cm.n).filter
          (fun i => i ∉ (∅ ∪ listUnion R : Finset ℕ))) = [] := by
        rw [List.filter_eq_nil_iff]
        intro a ha
        simpa using hcover a ha
      unfold ConcurrenceModel.GetCompleteCommunities
      rw [hmaR]
      simp [hfil]
      intro a ha
      simpa using hcover a (List.mem_range.mpr ha)
  · intro h
    unfold ConcurrenceModel.GetCompleteCommunities
    cases hma : markAll cm.n P ∅ with
    | none => rfl
    | some marked =>
      obtain ⟨hb, hpw, -, -⟩ := (markAll_eq_some_iff cm.n P ∅ marked).mp hma
      rcases h with ⟨c, hc, p, hp, hnp⟩ | hnd
      · exact absurd (hb c hc p hp) (not_lt.mpr hnp)
      · exact absurd hpw hnd

/-- Witness for C10: the idempotence and empty-input parts evaluated on a
concrete 3-node model with one seeded group `{1}`. -/
theorem getCompleteCommunities_spec_witness :
    (⟨3, []⟩ : ConcurrenceModel).GetCompleteCommunities [] =
      some ((List.range 3).map (fun i => {i})) ∧
    (⟨3, []⟩ : ConcurrenceModel).GetCompleteCommunities [{1}, {0}, {2}] =
      some [{1}, {0}, {2}] := by
  have h := getCompleteCommunities_spec ⟨3, []⟩ [{1}]
  exact ⟨h.1, h.2.1 [{1}, {0}, {2}] (by decide)⟩

/-- `struct Modularity`: resolution parameter plus an embedded
`ConcurrenceModel`.  Go `float64` arithmetic is embedded over `ℚ`. -/
structure Modularity where
  r : ℚ
  cm : ConcurrenceModel
deriving DecidableEq

/-- `func (qm Modularity) Quality`: `1/m · Σ_c Σ_{i∈c} Σ_{j∈c}
(w(i,j) − r/m · k_i · k_j)`. -/
def Modularity.Quality (qm : Modularity) (communities : List (Finset ℕ)) :
    ℚ :=
  (communities.map (fun c =>
    ∑ i in c, ∑ j in c,
      ((qm.cm.GetConcurrence i j : ℚ) -
        qm.r * (1 / (qm.cm.sumConcurrences : ℚ)) *
          (qm.cm.sumConcurrencesOf i : ℚ) *
          (qm.cm.sumConcurrencesOf j : ℚ)))).sum *
    (1 / (qm.cm.sumConcurrences : ℚ))

/-- `func (qm Modularity) DeltaQuality`: `0` when the two groups coincide,
otherwise `1/m · (Σ_{j ∈ newCu} (w(u,j) − r/m·k_u·k_j) −
Σ_{j ∈ oldCu, j ≠ u} (w(u,j) − r/m·k_u·k_j))`. -/
def Modularity.DeltaQuality (qm : Modularity) (communities : List (Finset ℕ))
    (u oldCu newCu : ℕ) : ℚ :=
  if oldCu = newCu then 0
  else
    ((∑ j in communities.getD newCu ∅,
        ((qm.cm.GetConcurrence u j : ℚ) -
          qm.r * (1 / (qm.cm.sumConcurrences : ℚ)) *
            (qm.cm.sumConcurrencesOf u : ℚ) *
            (qm.cm.sumConcurrencesOf j : ℚ))) -
      (∑ j in (communities.getD oldCu ∅).erase u,
        ((qm.cm.GetConcurrence u j : ℚ) -
          qm.r * (1 / (qm.cm.sumConcurrences : ℚ)) *
            (qm.cm.sumConcurrencesOf u : ℚ) *
            (qm.cm.sumConcurrencesOf j : ℚ)))) *
      (1 / (qm.cm.sumConcurrences : ℚ))

/-- `struct CPM` (Constant Potts Model). -/
structure CPM where
  r : ℚ
  cm : ConcurrenceModel
deriving DecidableEq

/-- `func (qm CPM) Quality`: `Σ_c (w_c − r·|c|²)` with
`w_c = Σ_{i∈c} Σ_{j∈c} w(i,j)`. -/
def CPM.Quality (qm : CPM) (communities : List (Finset ℕ)) : ℚ :=
  (communities.map (fun c =>
    (∑ i in c, ∑ j in c, (qm.cm.GetConcurrence i j : ℚ)) -
      qm.r * (c.card : ℚ) * (c.card : ℚ))).sum

/-- `func (qm CPM) DeltaQuality`: `0` when the two groups coincide, otherwise
`−Σ_{j ∈ oldCu, j≠u} w(u,j) + Σ_{j ∈ newCu} w(u,j)
− 2r·(|newCu| − |oldCu| + 1)`. -/
def CPM.DeltaQuality (qm : CPM) (communities : List (Finset ℕ))
    (u oldCu newCu : ℕ) : ℚ :=
  if oldCu = newCu then 0
  else
    (-(∑ j in (communities.getD oldCu ∅).erase u,
        (qm.cm.GetConcurrence u j : ℚ))) +
      (∑ j in communities.getD newCu ∅, (qm.cm.GetConcurrence u j : ℚ)) -
      2 * qm.r * (((communities.getD newCu ∅).card : ℚ) -
        ((communities.getD oldCu ∅).card : ℚ) + 1)

/-- The 2-node graph with one symmetric edge of weight 1. -/
def cmPair : ConcurrenceModel := ⟨2, [(0, [(1, 1)]), (1, [(0, 1)])]⟩

/-- C2: on the 2-node single-edge graph, moving node 0 from its singleton
group into node 1's group changes `Modularity.Quality` (r = 1) by `1/2`
while `Modularity.DeltaQuality` returns `1/4` (half the true change, a 50%
relative error, far beyond the 1e-9 tolerance), and changes `CPM.Quality`
(r = 1) by `0` while `CPM.DeltaQuality` returns `−1`.  The arithmetic is
exact, so no floating-point tolerance can reconcile the values. -/
theorem deltaQuality_is_not_quality_difference :
    ((Modularity.mk 1 cmPair).Quality [∅, {0, 1}] -
        (Modularity.mk 1 cmPair).Quality [{0}, {1}] = 1 / 2 ∧
      (Modularity.mk 1 cmPair).DeltaQuality [{0}, {1}] 0 0 1 = 1 / 4) ∧
    ((CPM.mk 1 cmPair).Quality [∅, {0, 1}] -
        (CPM.mk 1 cmPair).Quality [{0}, {1}] = 0 ∧
      (CPM.mk 1 cmPair).DeltaQuality [{0}, {1}] 0 0 1 = -1) := by
  refine ⟨⟨?_, ?_⟩, ?_, ?_⟩ <;>
    norm_num [Modularity.Quality, Modularity.DeltaQuality, CPM.Quality,
      CPM.DeltaQuality, cmPair, ConcurrenceModel.GetConcurrence,
      ConcurrenceModel.GetConcurrencesOf, ConcurrenceModel.sumConcurrencesOf,
      ConcurrenceModel.sumConcurrences, rowSum, alookup, Finset.sum_insert,
      Finset.mem_singleton, List.range_succ, Finset.erase_insert_of_ne,
      Finset.erase_eq_of_not_mem]

/-- The inner double loop of `func (cm ConcurrenceModel) Aggregate`: total
weight between two communities (absent entries count 0). -/
def crossWeight (cm : ConcurrenceModel) (c1 c2 : Finset ℕ) : ℕ :=
  ∑ pt1 in c1, ∑ pt2 in c2, cm.GetConcurrence pt1 pt2

/-- The aggregated weight stored at `(i, j)`: Go computes it once for the
ordered pair `i1 < i2` and stores it symmetrically. -/
def aggWeight (cm : ConcurrenceModel) (communities : List (Finset ℕ))
    (i j : ℕ) : ℕ :=
  crossWeight cm (communities.getD (min i j) ∅) (communities.getD (max i j) ∅)

/-- The sparse matrix built by steps 1–2 of `Aggregate`: one (possibly
empty) row per new node `i < len(communities)`, holding exactly the strictly
positive cross-community weights. -/
def aggConcurrences (cm : ConcurrenceModel) (communities : List (Finset ℕ)) :
    List (ℕ × List (ℕ × ℕ)) :=
  (List.range communities.length).map (fun i =>
    (i, ((List.range communities.length).filter
          (fun j => j ≠ i ∧ 0 < aggWeight cm communities i j)).map
        (fun j => (j, aggWeight cm communities i j))))

/-- `func (cm ConcurrenceModel) Aggregate`: builds the aggregated sparse
matrix and constructs a new model through `SetConcurrences` (whose
validation fatally rejects an empty community list, since then `newN = 0`).
The receiver `cm` is read, never written: the embedding is a pure function
returning a fresh model. -/
def ConcurrenceModel.Aggregate (cm : ConcurrenceModel)
    (communities : List (Finset ℕ)) : Option ConcurrenceModel :=
  SetConcurrences communities.length (aggConcurrences cm communities)

/-- `interface QualityModel`: exactly two implementations exist in the
package, so the interface is embedded as a closed sum. -/
inductive QualityModel where
  | modularity (qm : Modularity)
  | cpm (qm : CPM)
deriving DecidableEq

def QualityModel.GetN : QualityModel → ℕ
  | .modularity qm => qm.cm.GetN
  | .cpm qm => qm.cm.GetN

def QualityModel.GetCompleteCommunities (qm : QualityModel)
    (communities : List (Finset ℕ)) : Option (List (Finset ℕ)) :=
  match qm with
  | .modularity qm => qm.cm.GetCompleteCommunities communities
  | .cpm qm => qm.cm.GetCompleteCommunities communities

/-- `Aggregate` of either quality model: aggregate the graph and rewrap with
the same resolution parameter `r`. -/
def QualityModel.Aggregate (qm : QualityModel)
    (communities : List (Finset ℕ)) : Option QualityModel :=
  match qm with
  | .modularity qm => (qm.cm.Aggregate communities).map
      (fun acm => .modularity ⟨qm.r, acm⟩)
  | .cpm qm => (qm.cm.Aggregate communities).map (fun acm => .cpm ⟨qm.r, acm⟩)

def QualityModel.Quality (qm : QualityModel)
    (communities : List (Finset ℕ)) : ℚ :=
  match qm with
  | .modularity qm => qm.Quality communities
  | .cpm qm => qm.Quality communities

def QualityModel.DeltaQuality (qm : QualityModel)
    (communities : List (Finset ℕ)) (u oldCu newCu : ℕ) : ℚ :=
  match qm with
  | .modularity qm => qm.DeltaQuality communities u oldCu newCu
  | .cpm qm => qm.DeltaQuality communities u oldCu newCu

/-- `func flattenCommunities`: expand each aggregated community into the
union of its constituent original communities. -/
def flattenCommunities (aggCommunities communities : List (Finset ℕ)) :
    List (Finset ℕ) :=
  aggCommunities.map (fun aggC =>
    aggC.biUnion (fun idxC => communities.getD idxC ∅))

/-- The option flags parsed in step 1 of `Louvain`/`Leiden`, with the Go
defaults (sequential selector, multiple resolution, no shuffle). -/
structure LouvainOptions where
  useSeqSelector : Bool
  multiResolution : Bool
  shuffle : Bool
deriving DecidableEq

/-- Step 1 of `Louvain`/`Leiden`: the option-string switch.  Unrecognized
tokens are silently ignored. -/
def parseOptions (opts : List String) : LouvainOptions :=
  opts.foldl (fun acc opt =>
    match opt with
    | "priority selector" => { acc with useSeqSelector := false }
    | "sequential selector" => { acc with useSeqSelector := true }
    | "single resolution" => { acc with multiResolution := false }
    | "multiple resolution" => { acc with multiResolution := true }
    | "shuffle" => { acc with shuffle := true }
    | "no shuffle" => { acc with shuffle := false }
    | _ => acc) ⟨true, true, false⟩

instance setConstRightCommutative (c : ℕ) :
    RightCommutative (fun (ids2 : List ℕ) (pt : ℕ) => ids2.set pt c) := by
  refine ⟨fun b a1 a2 => ?_⟩
  by_cases h : a1 = a2
  · subst h
    rfl
  · exact List.set_comm c c b h

/-- Step 3 of `Louvain`/`Leiden`: the `communityIDs` array, one group index
per point (the order in which a community's points are visited is
irrelevant, so the multiset fold is well defined). -/
def buildIDs (communities : List (Finset ℕ)) (n : ℕ) : List ℕ :=
  communities.enum.foldl
    (fun ids p =>
      @Multiset.foldl _ _ (fun ids2 pt => ids2.set pt p.1)
        (setConstRightCommutative p.1) ids p.2.val)
    (List.replicate n 0)

/-- The inner `newCu` loop of the sequential selector: best delta (strictly
better than the running best, which starts at `0` with the current group). -/
def bestMove (qm : QualityModel) (communities : List (Finset ℕ))
    (u oldCu m : ℕ) : ℚ × ℕ :=
  (List.range m).foldl (fun acc newCu =>
    let d := qm.DeltaQuality communities u oldCu newCu
    if d > acc.1 then (d, newCu) else acc) (0, oldCu)

/-- Moving a point between groups exactly as the Go selectors do:
`delete(result[oldCu], u); result[newCu][u] = true`. -/
def moveNode (communities : List (Finset ℕ)) (u oldCu newCu : ℕ) :
    List (Finset ℕ) :=
  let c1 := communities.set oldCu ((communities.getD oldCu ∅).erase u)
  c1.set newCu (insert u (c1.getD newCu ∅))

/-- The sequential selector sweep (step 4.3 of `Louvain`/`Leiden`,
`useSeqSelector` branch): processes the points in order, moving each to its
strictly-best positive-delta group; the boolean is the `done` flag (no move
performed yet). -/
def seqSweep (qm : QualityModel) (m : ℕ) :
    List ℕ → List (Finset ℕ) × List ℕ × Bool →
      List (Finset ℕ) × List ℕ × Bool
  | [], st => st
  | u :: rest, (communities, ids, done) =>
    let oldCu := ids.getD u 0
    let best := bestMove qm communities u oldCu m
    if best.1 > 0 then
      seqSweep qm m rest
        (moveNode communities u oldCu best.2, ids.set u best.2, false)
    else
      seqSweep qm m rest (communities, ids, done)

/-- The priority selector scan (step 4.3, `else` branch): the single
globally best positive move `(delta, u, oldCu, newCu)`. -/
def priorityScan (qm : QualityModel) (m : ℕ) (points : List ℕ)
    (communities : List (Finset ℕ)) (ids : List ℕ) : ℚ × ℕ × ℕ × ℕ :=
  points.foldl (fun acc u =>
    let oldCu := ids.getD u 0
    (List.range m).foldl (fun acc2 newCu =>
      let d := qm.DeltaQuality communities u oldCu newCu
      if d > acc2.1 then (d, u, oldCu, newCu) else acc2) acc)
    (0, 0, ids.getD 0 0, ids.getD 0 0)

/-- Errors of the fueled embeddings: `.fatal` is a `log.Fatal` exit of the
Go code, `.fuelOut` means the computation has not returned within the given
recursion budget (so a result of `.error .fuelOut` for every fuel proves the
Go code never returns). -/
inductive LErr where
  | fatal
  | fuelOut
deriving DecidableEq

/-- The step-4 local-moving loop of `Louvain`/`Leiden`, fueled.  The access
order is `0, …, n−1`; the optional random shuffle is not modelled (all
claims settled here use the `no shuffle` default). -/
def localMoving (qm : QualityModel) (m n : ℕ) (useSeq : Bool) :
    ℕ → List (Finset ℕ) → List ℕ →
      Except LErr (List (Finset ℕ) × List ℕ)
  | 0, _, _ => .error .fuelOut
  | fuel + 1, communities, ids =>
    let points := List.range n
    if useSeq then
      match seqSweep qm m points (communities, ids, true) with
      | (c2, ids2, done) =>
        if done then .ok (c2, ids2)
        else localMoving qm m n useSeq fuel c2 ids2
    else
      match priorityScan qm m points communities ids with
      | (bestDelta, bestU, oldCBestU, bestNewCu) =>
        if bestDelta = 0 then .ok (communities, ids)
        else localMoving qm m n useSeq fuel
          (moveNode communities bestU oldCBestU bestNewCu)
          (ids.set bestU bestNewCu)

/-- `func Louvain`, fueled.  The body follows the Go source step by step; in
step 6.2 the recursive call is `Louvain(qm, result, opts...)` — the original
quality model and the current partition — exactly as in the source (the
aggregated model `newQM` is only used for the group-count comparison in step
6.3). -/
def Louvain (qm : QualityModel) (communities : List (Finset ℕ))
    (opts : List String) : ℕ → Except LErr (List (Finset ℕ))
  | 0 => .error .fuelOut
  | fuel + 1 =>
    let o := parseOptions opts
    match qm.GetCompleteCommunities communities with
    | none => .error .fatal
    | some result =>
      let n := qm.GetN
      let ids := buildIDs result n
      let m := result.length
      match localMoving qm m n o.useSeqSelector (fuel + 1) result ids with
      | .error e => .error e
      | .ok (result2, _) =>
        let result3 := result2.filter (fun c => c.card ≠ 0)
        if o.multiResolution then
          match qm.Aggregate result3 with
          | none => .error .fatal
          | some newQM =>
            match Louvain qm result3 opts fuel with
            | .error e => .error e
            | .ok aggResult =>
              if aggResult.length < newQM.GetN then
                .ok (flattenCommunities aggResult result3)
              else .ok result3
        else .ok result3

/-- `func Leiden`, fueled: the source body is a verbatim duplicate of
`Louvain` (including the step-6.2 recursion on `qm` and `result`). -/
def Leiden (qm : QualityModel) (communities : List (Finset ℕ))
    (opts : List String) : ℕ → Except LErr (List (Finset ℕ))
  | 0 => .error .fuelOut
  | fuel + 1 =>
    let o := parseOptions opts
    match qm.GetCompleteCommunities communities with
    | none => .error .fatal
    | some result =>
      let n := qm.GetN
      let ids := buildIDs result n
      let m := result.length
      match localMoving qm m n o.useSeqSelector (fuel + 1) result ids with
      | .error e => .error e
      | .ok (result2, _) =>
        let result3 := result2.filter (fun c => c.card ≠ 0)
        if o.multiResolution then
          match qm.Aggregate result3 with
          | none => .error .fatal
          | some newQM =>
            match Leiden qm result3 opts fuel with
            | .error e => .error e
            | .ok aggResult =>
              if aggResult.length < newQM.GetN then
                .ok (flattenCommunities aggResult result3)
              else .ok result3
        else .ok result3

deriving instance DecidableEq for Except

/-- The 1-node graph with no edges: the simplest valid quality model. -/
def cmOne : ConcurrenceModel := ⟨1, []⟩

/-- Modularity (r = 1) over the 1-node graph. -/
def qmOne : QualityModel := .modularity ⟨1, cmOne⟩

/-- One unfolding of `Louvain` on the 1-node model at the stationary
partition `[{0}]` with default options: the local-moving phase performs no
move and the body always reaches the step-6.2 recursive call
`Louvain(qm, result, opts...)` with the same model and partition. -/
theorem louvain_qmOne_step (f : ℕ) :
    Louvain qmOne [{0}] [] (f + 1) =
      match Louvain qmOne [{0}] [] f with
      | .error e => .error e
      | .ok aggResult =>
        if aggResult.length < 1 then .ok (flattenCommunities aggResult [{0}])
        else .ok [{0}] := rfl

theorem louvain_qmOne_aux (f : ℕ) :
    Louvain qmOne [{0}] [] f = .error .fuelOut := by
  induction f with
  | zero => rfl
  | succ f ih => rw [louvain_qmOne_step, ih]

/-- C1: with the default options (`multiple resolution`), `Louvain` never
returns on the 1-node model with the empty initial partition: for every
recursion budget the computation is still running, because step 6.2
unconditionally re-enters `Louvain(qm, result, opts...)` on the same
un-aggregated model, so the recursion never bottoms out. -/
theorem louvain_never_terminates (fuel : ℕ) :
    Louvain qmOne [] [] fuel = .error .fuelOut := by
  cases fuel with
  | zero => rfl
  | succ f =>
    have hstep : Louvain qmOne [] [] (f + 1) =
        match Louvain qmOne [{0}] [] f with
        | .error e => .error e
        | .ok aggResult =>
          if aggResult.length < 1 then
            .ok (flattenCommunities aggResult [{0}])
          else .ok [{0}] := rfl
    rw [hstep, louvain_qmOne_aux f]

theorem leiden_qmOne_step (f : ℕ) :
    Leiden qmOne [{0}] [] (f + 1) =
      match Leiden qmOne [{0}] [] f with
      | .error e => .error e
      | .ok aggResult =>
        if aggResult.length < 1 then .ok (flattenCommunities aggResult [{0}])
        else .ok [{0}] := rfl

theorem leiden_qmOne_aux (f : ℕ) :
    Leiden qmOne [{0}] [] f = .error .fuelOut := by
  induction f with
  | zero => rfl
  | succ f ih => rw [leiden_qmOne_step, ih]

/-- C3: the multi-resolution step does not run the optimizer on the
aggregated model from an empty partition; it re-enters `Leiden(qm, result,
opts...)` on the original model with the current partition (the aggregated
model `newQM` is only consulted for the final group-count comparison), and
consequently `Leiden` with default options never returns, here shown on the
1-node model for every recursion budget. -/
theorem leiden_never_terminates (fuel : ℕ) :
    Leiden qmOne [] [] fuel = .error .fuelOut := by
  cases fuel with
  | zero => rfl
  | succ f =>
    have hstep : Leiden qmOne [] [] (f + 1) =
        match Leiden qmOne [{0}] [] f with
        | .error e => .error e
        | .ok aggResult =>
          if aggResult.length < 1 then
            .ok (flattenCommunities aggResult [{0}])
          else .ok [{0}] := rfl
    rw [hstep, leiden_qmOne_aux f]

/-- The 4-node graph with edges (0,1):2, (1,2):2, (0,3):1. -/
def cmFour : ConcurrenceModel :=
  ⟨4, [(0, [(1, 2), (3, 1)]), (1, [(0, 2), (2, 2)]), (2, [(1, 2)]),
    (3, [(0, 1)])]⟩

/-- C8: under the sequential selector with the CPM model (r = 3/4) on
`cmFour`, starting from the complete partition `[{0,1,2},{3}]`, the sweep
performs exactly one move (node 0, gated by its strictly positive
`DeltaQuality` of 1/2), yet the partition's quality drops from 1/2 to 0:
a sweep can strictly decrease quality, because `DeltaQuality` is not the
true quality change. -/
theorem seqSweep_decreases_cpm_quality :
    seqSweep (QualityModel.cpm (CPM.mk (3 / 4) cmFour)) 2 (List.range 4)
        ([{0, 1, 2}, {3}], [0, 0, 0, 1], true) =
      ([{1, 2}, {0, 3}], [1, 0, 0, 1], false) ∧
    (CPM.mk (3 / 4) cmFour).DeltaQuality [{0, 1, 2}, {3}] 0 0 1 = 1 / 2 ∧
    (CPM.mk (3 / 4) cmFour).Quality [{1, 2}, {0, 3}] = 0 ∧
    (CPM.mk (3 / 4) cmFour).Quality [{0, 1, 2}, {3}] = 1 / 2 := by
  refine ⟨?_, ?_, ?_, ?_⟩
  · norm_num [seqSweep, bestMove, moveNode, QualityModel.DeltaQuality,
      CPM.DeltaQuality, cmFour, ConcurrenceModel.GetConcurrence,
      ConcurrenceModel.GetConcurrencesOf, alookup, List.range_succ,
      Finset.sum_insert, Finset.mem_insert, Finset.mem_singleton]
  · norm_num [CPM.DeltaQuality, cmFour, ConcurrenceModel.GetConcurrence,
      ConcurrenceModel.GetConcurrencesOf, alookup, Finset.sum_insert,
      Finset.mem_insert, Finset.mem_singleton]
  · norm_num [CPM.Quality, cmFour, ConcurrenceModel.GetConcurrence,
      ConcurrenceModel.GetConcurrencesOf, alookup, Finset.sum_insert,
      Finset.mem_insert, Finset.mem_singleton]
  · norm_num [CPM.Quality, cmFour, ConcurrenceModel.GetConcurrence,
      ConcurrenceModel.GetConcurrencesOf, alookup, Finset.sum_insert,
      Finset.mem_insert, Finset.mem_singleton]

/-- Step 1 of `func mergeClusters`: locate the minimum stored distance and
its index pair; the running minimum starts at `1.0` with the pair `(0,0)`. -/
def findMinDist (distMat : List (List (ℕ × ℚ))) : ℚ × ℕ × ℕ :=
  distMat.enum.foldl (fun acc p =>
    p.2.foldl (fun acc2 q =>
      if q.2 < acc2.1 then (q.2, p.1, q.1) else acc2) acc)
    (1, 0, 0)

/-- Steps 3–5 of `func mergeClusters`, fueled (the Go recursion shrinks the
cluster count by one per merge).  The merged row construction mirrors the Go
`l`-loop literally: entries with `l == jMinDist` fall through every branch
and are dropped, and the `min` with the old `jMinDist` column is taken only
when the row has an `iMinDist` entry. -/
def mergeClusters : ℕ → List (List (ℕ × ℚ)) → List (Finset ℕ) → ℚ →
    List (Finset ℕ)
  | 0, _, communities, _ => communities
  | fuel + 1, distMat, communities, eps =>
    let md := findMinDist distMat
    if md.1 > eps then communities
    else
      let i := min md.2.1 md.2.2
      let j := max md.2.1 md.2.2
      let newCommunities := (List.range (communities.length - 1)).map
        (fun k =>
          if k < i then communities.getD k ∅
          else if k = i then
            (communities.getD i ∅) ∪ (communities.getD j ∅)
          else if k < j then communities.getD k ∅
          else communities.getD (k + 1) ∅)
      let newDistMat := (List.range (communities.length - 1)).map (fun k =>
        let oldK := if k ≥ j then k + 1 else k
        let oldRow := distMat.getD oldK []
        oldRow.filterMap (fun q =>
          if q.1 < i then some (q.1, q.2)
          else if q.1 = i then
            some (q.1, match alookup oldRow j with
              | some dj => min q.2 dj
              | none => q.2)
          else if q.1 < j then some (q.1, q.2)
          else if q.1 > j then some (q.1 - 1, q.2)
          else none))
      mergeClusters fuel newDistMat newCommunities eps

/-- C6: on the 3-cluster chain with `d(0,1) = 1/10`, `d(1,2) = 3/10`, no
stored `d(0,2)`, and `eps = 1/2`, the code merges clusters 0 and 1 and then
stops with `[{0,1},{2}]` — the merged cluster's distance to cluster 2 is
lost (row 2's entry for old cluster 1 falls through the `l == jMinDist`
case and row 1 is discarded wholesale), although single-linkage's
`min(d(0,2), d(1,2)) = 3/10 ≤ eps` requires one further merge into a single
cluster `{0,1,2}`. -/
theorem mergeClusters_drops_distances :
    mergeClusters 3
      [[(1, 1 / 10)], [(0, 1 / 10), (2, 3 / 10)], [(1, 3 / 10)]]
      [{0}, {1}, {2}] (1 / 2) = [{0, 1}, {2}] ∧
    (1 / 10 : ℚ) < 1 / 2 ∧ (3 / 10 : ℚ) < 1 / 2 := by
  refine ⟨?_, by norm_num, by norm_num⟩
  rw [mergeClusters]
  norm_num [findMinDist, alookup, List.range_succ, List.enum, List.enumFrom,
    List.foldl_cons, List.foldl_nil]
  rw [mergeClusters]
  norm_num [findMinDist, List.enum, List.enumFrom, List.foldl_cons,
    List.foldl_nil]
  decide

theorem alookup_append {α : Type} (l1 l2 : List (ℕ × α)) (u : ℕ) :
    alookup (l1 ++ l2) u =
      match alookup l1 u with
      | some v => some v
      | none => alookup l2 u := by
  induction l1 with
  | nil => simp [alookup]
  | cons p t ih =>
    obtain ⟨k, v⟩ := p
    by_cases h : k = u <;> simp [alookup, h, ih]

theorem alookup_range_map {α : Type} (f : ℕ → α) (k u : ℕ) :
    alookup ((List.range k).map (fun i => (i, f i))) u =
      if u < k then some (f u) else none := by
  induction k with
  | zero => simp [alookup]
  | succ k ih =>
    rw [List.range_succ, List.map_append, alookup_append, ih]
    by_cases h : u < k
    · simp [h, Nat.lt_succ_of_lt h]
    · by_cases h2 : u = k
      · subst h2
        simp [alookup, Nat.lt_succ_self, h]
      · have h3 : ¬ u < k + 1 := by omega
        simp [alookup, h, h2, h3, Ne.symm h2]

theorem alookup_map_self {α : Type} (l : List ℕ) (g : ℕ → α) (u : ℕ) :
    alookup (l.map (fun j => (j, g j))) u =
      if u ∈ l then some (g u) else none := by
  induction l with
  | nil => simp [alookup]
  | cons x t ih =>
    by_cases h : x = u
    · subst h
      simp [alookup]
    · simp [alookup, h, ih, Ne.symm h]

/-- For a symmetric stored mapping, the stored entry `(i, j)` and its mirror
`(j, i)` coincide as options. -/
theorem alookup_row_symm (cm : ConcurrenceModel)
    (hsym : SymmetricMap cm.concurrences) (i j : ℕ) :
    alookup (cm.GetConcurrencesOf i) j = alookup (cm.GetConcurrencesOf j) i := by
  suffices h : ∀ a b w, alookup (cm.GetConcurrencesOf a) b = some w →
      alookup (cm.GetConcurrencesOf b) a = some w by
    cases h1 : alookup (cm.GetConcurrencesOf i) j with
    | some w => exact (h i j w h1).symm
    | none =>
      cases h2 : alookup (cm.GetConcurrencesOf j) i with
      | some w => exact absurd (h j i w h2) (by simp [h1])
      | none => rfl
  intro a b w hw
  unfold ConcurrenceModel.GetConcurrencesOf at hw ⊢
  cases hra : alookup cm.concurrences a with
  | none =>
    rw [hra] at hw
    simp [alookup] at hw
  | some rowa =>
    rw [hra] at hw
    simp only [Option.getD_some] at hw
    have hs := hsym (a, rowa) (alookup_mem hra) (b, w) (alookup_mem hw)
    cases hrb : alookup cm.concurrences b with
    | none =>
      rw [hrb] at hs
      simp at hs
    | some rowb =>
      rw [hrb] at hs
      simpa using hs

theorem getConcurrence_symm (cm : ConcurrenceModel)
    (hsym : SymmetricMap cm.concurrences) (i j : ℕ) :
    cm.GetConcurrence i j = cm.GetConcurrence j i := by
  unfold ConcurrenceModel.GetConcurrence
  rw [alookup_row_symm cm hsym i j]

theorem aggWeight_symm (cm : ConcurrenceModel) (communities : List (Finset ℕ))
    (i j : ℕ) : aggWeight cm communities j i = aggWeight cm communities i j := by
  unfold aggWeight
  rw [min_comm, max_comm]

/-- The stored aggregated weight equals the full cross-community sum, in
either index order, for a symmetric input graph. -/
theorem aggWeight_eq (cm : ConcurrenceModel) (communities : List (Finset ℕ))
    (hsym : SymmetricMap cm.concurrences) (i j : ℕ) :
    aggWeight cm communities i j =
      ∑ p in communities.getD i ∅, ∑ q in communities.getD j ∅,
        cm.GetConcurrence p q := by
  unfold aggWeight crossWeight
  rcases Nat.lt_trichotomy i j with h | h | h
  · rw [min_eq_left h.le, max_eq_right h.le]
  · subst h
    rw [min_self, max_self]
  · rw [min_eq_right h.le, max_eq_left h.le, Finset.sum_comm]
    exact Finset.sum_congr rfl (fun p _ => Finset.sum_congr rfl
      (fun q _ => getConcurrence_symm cm hsym q p))

/-- C9: for a symmetric graph and a nonempty community list, `Aggregate`
succeeds and returns a model with one node per community (indexed by the
community's position); the weight between two distinct new nodes is the sum
of all original weights crossing between the two communities, and the
aggregated graph has no self-loops (all intra-community weight is dropped).
The receiver is never written: the embedding is a pure function producing a
fresh model. -/
theorem aggregate_spec (cm : ConcurrenceModel) (communities : List (Finset ℕ))
    (hsym : SymmetricMap cm.concurrences) (hne : 0 < communities.length) :
    ∃ acm, cm.Aggregate communities = some acm ∧
      acm.GetN = communities.length ∧
      (∀ i j, i < communities.length → j < communities.length → i ≠ j →
        acm.GetConcurrence i j =
          ∑ p in communities.getD i ∅, ∑ q in communities.getD j ∅,
            cm.GetConcurrence p q) ∧
      (∀ i, acm.GetConcurrence i i = 0) := by
  have hrow : ∀ i, alookup (aggConcurrences cm communities) i =
      if i < communities.length then
        some (((List.range communities.length).filter
            (fun j => j ≠ i ∧ 0 < aggWeight cm communities i j)).map
          (fun j => (j, aggWeight cm communities i j)))
      else none := by
    intro i
    unfold aggConcurrences
    exact alookup_range_map _ communities.length i
  have hverify : verifyConcurrences communities.length
      (aggConcurrences cm communities) = true := by
    rw [verifyConcurrences_iff]
    refine ⟨?_, hne, ?_⟩
    · intro p hp q hq
      unfold aggConcurrences at hp
      obtain ⟨i, hi, rfl⟩ := List.mem_map.mp hp
      simp only at hq
      obtain ⟨j, hjf, rfl⟩ := List.mem_map.mp hq
      have hjr : j ∈ List.range communities.length :=
        List.mem_of_mem_filter hjf
      have hjc : j ≠ i ∧ 0 < aggWeight cm communities i j := by
        simpa using List.of_mem_filter hjf
      rw [hrow j, if_pos (List.mem_range.mp hjr)]
      simp only [Option.some_bind]
      rw [alookup_map_self]
      have himem : i ∈ (List.range communities.length).filter
          (fun k => k ≠ j ∧ 0 < aggWeight cm communities j k) := by
        refine List.mem_filter.mpr ⟨hi, ?_⟩
        simp only [decide_eq_true_eq]
        exact ⟨fun he => hjc.1 he.symm, by rw [aggWeight_symm]; exact hjc.2⟩
      rw [if_pos himem, aggWeight_symm]
    · intro p hp
      unfold aggConcurrences at hp
      obtain ⟨i, hi, rfl⟩ := List.mem_map.mp hp
      refine ⟨List.mem_range.mp hi, ?_⟩
      intro q hq
      simp only at hq
      obtain ⟨j, hjf, rfl⟩ := List.mem_map.mp hq
      exact List.mem_range.mp (List.mem_of_mem_filter hjf)
  have hset : cm.Aggregate communities =
      some ⟨communities.length, aggConcurrences cm communities⟩ := by
    unfold ConcurrenceModel.Aggregate SetConcurrences
    rw [if_pos hverify]
  refine ⟨⟨communities.length, aggConcurrences cm communities⟩, hset, rfl,
    ?_, ?_⟩
  · intro i j hi hj hij
    unfold ConcurrenceModel.GetConcurrence ConcurrenceModel.GetConcurrencesOf
    simp only
    rw [hrow i, if_pos hi]
    simp only [Option.getD_some]
    rw [alookup_map_self]
    by_cases hw : 0 < aggWeight cm communities i j
    · have hjmem : j ∈ (List.range communities.length).filter
          (fun k => k ≠ i ∧ 0 < aggWeight cm communities i k) := by
        refine List.mem_filter.mpr ⟨List.mem_range.mpr hj, ?_⟩
        simp only [decide_eq_true_eq]
        exact ⟨fun he => hij he.symm, hw⟩
      rw [if_pos hjmem]
      simpa using aggWeight_eq cm communities hsym i j
    · have hjmem : j ∉ (List.range communities.length).filter
          (fun k => k ≠ i ∧ 0 < aggWeight cm communities i k) := by
        intro hmem
        have := List.of_mem_filter hmem
        simp only [decide_eq_true_eq] at this
        exact hw this.2
      rw [if_neg hjmem]
      have h0 : aggWeight cm communities i j = 0 := Nat.eq_zero_of_not_pos hw
      show 0 = ∑ p in communities.getD i ∅, ∑ q in communities.getD j ∅,
        cm.GetConcurrence p q
      rw [← aggWeight_eq cm communities hsym i j, h0]
  · intro i
    unfold ConcurrenceModel.GetConcurrence ConcurrenceModel.GetConcurrencesOf
    simp only
    rw [hrow i]
    by_cases hi : i < communities.length
    · rw [if_pos hi]
      simp only [Option.getD_some]
      rw [alookup_map_self]
      have : i ∉ (List.range communities.length).filter
          (fun k => k ≠ i ∧ 0 < aggWeight cm communities i k) := by
        intro hmem
        have := List.of_mem_filter hmem
        simp only [decide_eq_true_eq] at this
        exact this.1 rfl
      rw [if_neg this]
      rfl
    · rw [if_neg hi]
      simp [alookup]

/-- Witness for C9: the aggregate of the 4-node graph `cmFour` over the
partition `[{0,1,2},{3}]` has 2 nodes, cross weight `1` between the two
groups, and no self-loops. -/
theorem aggregate_spec_witness :
    ∃ acm, cmFour.Aggregate [{0, 1, 2}, {3}] = some acm ∧
      acm.GetN = 2 ∧
      acm.GetConcurrence 0 1 =
        ∑ p in ({0, 1, 2} : Finset ℕ), ∑ q in ({3} : Finset ℕ),
          cmFour.GetConcurrence p q ∧
      acm.GetConcurrence 0 0 = 0 := by
  obtain ⟨acm, h1, h2, h3, h4⟩ := aggregate_spec cmFour [{0, 1, 2}, {3}]
    (by decide) (by decide)
  exact ⟨acm, h1, h2, h3 0 1 (by decide) (by decide) (by decide), h4 0⟩

/-- `math.Erf`, the Gauss error function
`erf x = 2/√π · ∫ t in 0..x, exp (−t²)` (the only part of the embedding
over `ℝ`, since the error function has no exact rational form). -/
noncomputable def erf (x : ℝ) : ℝ :=
  (2 / Real.sqrt Real.pi) * ∫ t in (0:ℝ)..x, Real.exp (-(t ^ 2))

theorem erf_neg_of_neg {x : ℝ} (hx : x < 0) : erf x < 0 := by
  unfold erf
  have h2 : (0:ℝ) < 2 / Real.sqrt Real.pi := by positivity
  have hI : 0 < ∫ t in x..(0:ℝ), Real.exp (-(t ^ 2)) := by
    refine intervalIntegral.intervalIntegral_pos_of_pos ?_ ?_ hx
    · exact Continuous.intervalIntegrable (by continuity) x 0
    · exact fun t => Real.exp_pos _
  rw [intervalIntegral.integral_symm]
  exact mul_neg_of_pos_of_neg h2 (neg_neg_iff_pos.mpr hI)

/-- `func (cm ConcurrenceModel) InduceNormalizedSimilarities`: every node
`u < n` gets a row with diagonal `1.0` and, for every stored neighbor
weight, the average of the two error-function-normalized weights
`0.5·(erf((w − mean_u)/var_u) + erf((w − mean_v)/var_v))`. -/
noncomputable def InduceNormalizedSimilarities (cm : ConcurrenceModel) :
    List (ℕ × List (ℕ × ℝ)) :=
  (List.range cm.n).map (fun u =>
    (u, (u, 1) :: (cm.GetConcurrencesOf u).map (fun q =>
      (q.1, 0.5 *
        (erf (((q.2 : ℝ) - (cm.meanConcurrenceOf u : ℝ)) /
            (cm.varConcurrenceOf u : ℝ)) +
          erf (((q.2 : ℝ) - (cm.meanConcurrenceOf q.1 : ℝ)) /
            (cm.varConcurrenceOf q.1 : ℝ)))))))

/-- The 4-node graph with edges (0,1):1, (0,2):3, (1,3):3: nodes 0 and 1
each see the two distinct neighbor weights 1 and 3, so each has mean 2 and
variance 1. -/
def cmErf : ConcurrenceModel :=
  ⟨4, [(0, [(1, 1), (2, 3)]), (1, [(0, 1), (3, 3)]), (2, [(0, 3)]),
    (3, [(1, 3)])]⟩

/-- C4: the normalized similarity of the stored pair (0, 1) of `cmErf` is
`erf(−1) < 0`, outside the claimed range [0,1] (the code applies `erf`
directly, so any weight below a node's mean yields a negative similarity;
the code's own comment says the value at the mean should be 0.5, but the
code produces `erf 0 = 0` there). -/
theorem normalized_similarity_negative :
    (alookup ((alookup (InduceNormalizedSimilarities cmErf) 0).getD []) 1).getD
      1 < 0 := by
  have hrow : (alookup ((alookup (InduceNormalizedSimilarities cmErf) 0).getD
      []) 1).getD 1 = 0.5 * (erf (-1) + erf (-1)) := by
    norm_num [InduceNormalizedSimilarities, cmErf,
      ConcurrenceModel.meanConcurrenceOf, ConcurrenceModel.varConcurrenceOf,
      ConcurrenceModel.sumConcurrencesOf, ConcurrenceModel.GetConcurrencesOf,
      rowSum, alookup, List.range_succ]
  rw [hrow]
  have := erf_neg_of_neg (x := -1) (by norm_num)
  nlinarith [this]

/-- `func (cm ConcurrenceModel) InduceSimilarities` (the plain transform,
`simType 0`): nodes with no stored neighbors are skipped entirely; otherwise
the row holds the diagonal `1.0` and
`sim(u,v) = w(u,v)·(0.5/k_u + 0.5/k_v)`. -/
def InduceSimilarities (cm : ConcurrenceModel) : List (ℕ × List (ℕ × ℚ)) :=
  (List.range cm.n).filterMap (fun u =>
    if (cm.GetConcurrencesOf u).length = 0 then none
    else some (u, (u, 1) :: (cm.GetConcurrencesOf u).map (fun q =>
      (q.1, (q.2 : ℚ) * (1 / 2 / (cm.sumConcurrencesOf u : ℚ) +
        1 / 2 / (cm.sumConcurrencesOf q.1 : ℚ))))))

/-- `func getCorePoints`: fatally rejects (returns `none`) a similarity
matrix missing a row for some `pt < len(simMat)`; otherwise maps every point
whose neighborhood density (number of stored similarities with
`sim + eps ≥ 1`) reaches `minPts` to that density. -/
def getCorePoints (simMat : List (ℕ × List (ℕ × ℚ))) (eps : ℚ)
    (minPts : ℕ) : Option (List (ℕ × ℕ)) :=
  if ∀ pt ∈ List.range simMat.length, (alookup simMat pt).isSome then
    some ((List.range simMat.length).filterMap (fun pt =>
      let density := (((alookup simMat pt).getD []).filter
        (fun q => q.2 + eps ≥ 1)).length
      if density ≥ minPts then some (pt, density) else none))
  else none

/-- The key set of the core-point map. -/
def corePtsKeys (corePts : List (ℕ × ℕ)) : Finset ℕ :=
  (corePts.map Prod.fst).toFinset

/-- The core half of `func getNeighbors`: the core points within `pt`'s
eps-neighborhood (excluding `pt` itself). -/
def coreNeighbors (simMat : List (ℕ × List (ℕ × ℚ))) (eps : ℚ)
    (corePts : List (ℕ × ℕ)) (pt : ℕ) : Finset ℕ :=
  ((((alookup simMat pt).getD []).filter (fun q =>
    q.1 ≠ pt ∧ q.2 + eps ≥ 1 ∧ (alookup corePts q.1).isSome)).map
    Prod.fst).toFinset

/-- The noncore half of `func getNeighbors`. -/
def noncoreNeighbors (simMat : List (ℕ × List (ℕ × ℚ))) (eps : ℚ)
    (corePts : List (ℕ × ℕ)) (pt : ℕ) : Finset ℕ :=
  ((((alookup simMat pt).getD []).filter (fun q =>
    q.1 ≠ pt ∧ q.2 + eps ≥ 1 ∧ ¬(alookup corePts q.1).isSome)).map
    Prod.fst).toFinset

/-- Step 5.2 of `DBScan`: the densest unassigned core point; the sentinel
`(n, 0)` means none was found (strictly greater density wins, so a core
point of density `0` is never selected). -/
def pickCenter (corePts : List (ℕ × ℕ)) (assigned : Finset ℕ) (n : ℕ) :
    ℕ × ℕ :=
  corePts.foldl (fun acc p =>
    if p.1 ∈ assigned then acc
    else if p.2 > acc.2 then (p.1, p.2) else acc) (n, 0)

/-- Step 5.5 of `DBScan`: breadth-first expansion of one community through
core-neighbor edges, absorbing unassigned noncore neighbors as leaves.  The
boundary is processed as a set (the Go map-iteration order does not affect
the sets of assigned points), and the fuel bounds the number of rounds. -/
def bfsExpand (coreN noncoreN : ℕ → Finset ℕ) :
    ℕ → Finset ℕ → Finset ℕ → Finset ℕ → Finset ℕ × Finset ℕ
  | 0, assigned, comm, _ => (assigned, comm)
  | fuel + 1, assigned, comm, boundary =>
    if boundary = ∅ then (assigned, comm)
    else
      let reach := boundary.biUnion (fun b => noncoreN b ∪ coreN b)
      let newPts := reach \ assigned
      let newBoundary := (boundary.biUnion coreN) \ assigned
      bfsExpand coreN noncoreN fuel (assigned ∪ newPts) (comm ∪ newPts)
        newBoundary

/-- Step 5 of `DBScan`: repeatedly seed a new community at the densest
unassigned core point and expand it. -/
def dbscanLoop (corePts : List (ℕ × ℕ)) (coreN noncoreN : ℕ → Finset ℕ)
    (n innerFuel : ℕ) :
    ℕ → Finset ℕ → List (Finset ℕ) → Finset ℕ × List (Finset ℕ)
  | 0, assigned, communities => (assigned, communities)
  | fuel + 1, assigned, communities =>
    let c := pickCenter corePts assigned n
    if c.1 = n then (assigned, communities)
    else
      let r := bfsExpand coreN noncoreN innerFuel (insert c.1 assigned)
        {c.1} {c.1}
      dbscanLoop corePts coreN noncoreN n innerFuel fuel r.1
        (communities ++ [r.2])

/-- `func (cm ConcurrenceModel) DBScan` for the plain single-node similarity
(`simType 0`), the variant the settled claim is about.  Step 6 appends a
singleton community for every similarity-matrix key never assigned by the
main loop. -/
def ConcurrenceModel.DBScan (cm : ConcurrenceModel) (eps : ℚ)
    (minPts : ℕ) : Option (List (Finset ℕ)) :=
  match getCorePoints (InduceSimilarities cm) eps minPts with
  | none => none
  | some corePts =>
    let r := dbscanLoop corePts (coreNeighbors (InduceSimilarities cm) eps
        corePts) (noncoreNeighbors (InduceSimilarities cm) eps corePts)
      cm.GetN (cm.GetN + 1) (corePts.length + 1) ∅ []
    some (r.2 ++ (((InduceSimilarities cm).map Prod.fst).filter
      (fun pt => pt ∉ r.1)).map (fun pt => {pt}))

/-- The 3-node graph with one symmetric edge (0,1) of weight 1; node 2 is
isolated and gets no row in the plain similarity matrix. -/
def cmIso : ConcurrenceModel := ⟨3, [(0, [(1, 1)]), (1, [(0, 1)])]⟩

/-- C5 counterexample: on `cmIso` with `eps = 1/2`, `minPts = 5`, DBScan
returns `[{0},{1}]` — node 2 of the constructed graph appears in no returned
cluster, because isolated nodes are omitted from the plain similarity
matrix and step 6 only sweeps the matrix's keys. -/
theorem dbscan_omits_isolated_node :
    cmIso.DBScan (1 / 2) 5 = some [{0}, {1}] ∧ (2 : ℕ) < cmIso.GetN ∧
      ∀ c ∈ [({0} : Finset ℕ), {1}], (2 : ℕ) ∉ c := by
  refine ⟨?_, by decide, by decide⟩
  have hsim : InduceSimilarities cmIso =
      [(0, [(0, 1), (1, 1)]), (1, [(1, 1), (0, 1)])] := by
    norm_num [InduceSimilarities, cmIso, ConcurrenceModel.GetConcurrencesOf,
      ConcurrenceModel.sumConcurrencesOf, rowSum, alookup, List.range_succ,
      List.filterMap_cons, List.filterMap_nil]
  have hcore : getCorePoints (InduceSimilarities cmIso) (1 / 2) 5 =
      some [] := by
    rw [hsim]
    norm_num [getCorePoints, alookup, List.range_succ]
  unfold ConcurrenceModel.DBScan
  rw [hcore]
  have hloop : dbscanLoop [] (coreNeighbors (InduceSimilarities cmIso) (1 / 2)
      []) (noncoreNeighbors (InduceSimilarities cmIso) (1 / 2) []) cmIso.GetN
      (cmIso.GetN + 1) 1 ∅ [] = (∅, []) := by
    rw [dbscanLoop]
    norm_num [pickCenter, cmIso, ConcurrenceModel.GetN]
  simp only [List.length_nil, Nat.zero_add, hloop, hsim]
  decide

theorem pickCenter_spec (corePts : List (ℕ × ℕ)) (assigned : Finset ℕ)
    (n : ℕ) :
    pickCenter corePts assigned n = (n, 0) ∨
      ∃ p ∈ corePts, p.1 ∉ assigned ∧
        pickCenter corePts assigned n = (p.1, p.2) := by
  unfold pickCenter
  suffices h : ∀ (l : List (ℕ × ℕ)) (init : ℕ × ℕ),
      l.foldl (fun acc p =>
        if p.1 ∈ assigned then acc
        else if p.2 > acc.2 then (p.1, p.2) else acc) init = init ∨
      ∃ p ∈ l, p.1 ∉ assigned ∧
        l.foldl (fun acc p =>
          if p.1 ∈ assigned then acc
          else if p.2 > acc.2 then (p.1, p.2) else acc) init =
          (p.1, p.2) by
    rcases h corePts (n, 0) with h1 | ⟨p, hp, hpa, he⟩
    · exact Or.inl h1
    · exact Or.inr ⟨p, hp, hpa, he⟩
  intro l
  induction l with
  | nil => exact fun init => Or.inl rfl
  | cons p t ih =>
    intro init
    rw [List.foldl_cons]
    rcases ih (if p.1 ∈ assigned then init
        else if p.2 > init.2 then (p.1, p.2) else init) with h1 | h1
    · rw [h1]
      by_cases hpa : p.1 ∈ assigned
      · exact Or.inl (by rw [if_pos hpa])
      · by_cases hpd : p.2 > init.2
        · refine Or.inr ⟨p, List.mem_cons_self p t, hpa, ?_⟩
          rw [if_neg hpa, if_pos hpd]
        · exact Or.inl (by rw [if_neg hpa, if_neg hpd])
    · obtain ⟨q, hq, hqa, he⟩ := h1
      exact Or.inr ⟨q, List.mem_cons_of_mem p hq, hqa, he⟩

theorem bfsExpand_spec (coreN noncoreN : ℕ → Finset ℕ) (K : Finset ℕ)
    (hcN : ∀ b, coreN b ⊆ K) :
    ∀ (fuel : ℕ) (assigned comm boundary : Finset ℕ),
      boundary ⊆ K →
      ∃ extra : Finset ℕ,
        bfsExpand coreN noncoreN fuel assigned comm boundary =
          (assigned ∪ extra, comm ∪ extra) ∧
        Disjoint extra assigned ∧
        extra ⊆ K.biUnion (fun b => noncoreN b ∪ coreN b) := by
  intro fuel
  induction fuel with
  | zero =>
    intro assigned comm boundary _
    exact ⟨∅, by simp [bfsExpand], by simp, by simp⟩
  | succ fuel ih =>
    intro assigned comm boundary hbK
    by_cases hb : boundary = ∅
    · exact ⟨∅, by simp [bfsExpand, hb], by simp, by simp⟩
    · have hstep : bfsExpand coreN noncoreN (fuel + 1) assigned comm
          boundary =
          bfsExpand coreN noncoreN fuel
            (assigned ∪
              (boundary.biUnion (fun b => noncoreN b ∪ coreN b) \ assigned))
            (comm ∪
              (boundary.biUnion (fun b => noncoreN b ∪ coreN b) \ assigned))
            ((boundary.biUnion coreN) \ assigned) := by
        simp [bfsExpand, hb]
      obtain ⟨e2, he, hd, hsub⟩ := ih
        (assigned ∪
          (boundary.biUnion (fun b => noncoreN b ∪ coreN b) \ assigned))
        (comm ∪
          (boundary.biUnion (fun b => noncoreN b ∪ coreN b) \ assigned))
        ((boundary.biUnion coreN) \ assigned)
        (subset_trans Finset.sdiff_subset
          (Finset.biUnion_subset.mpr (fun b _ => hcN b)))
      refine ⟨(boundary.biUnion (fun b => noncoreN b ∪ coreN b) \ assigned) ∪
          e2, ?_, ?_, ?_⟩
      · rw [hstep, he, Finset.union_assoc, Finset.union_assoc]
      · rw [Finset.disjoint_union_left]
        exact ⟨Finset.sdiff_disjoint,
          hd.mono_right Finset.subset_union_left⟩
      · rw [Finset.union_subset_iff]
        refine ⟨subset_trans Finset.sdiff_subset ?_, hsub⟩
        exact Finset.biUnion_subset_biUnion_of_subset_left _ hbK

theorem dbscanLoop_spec (corePts : List (ℕ × ℕ))
    (coreN noncoreN : ℕ → Finset ℕ) (n innerFuel : ℕ)
    (hcN : ∀ b, coreN b ⊆ corePtsKeys corePts) :
    ∀ (fuel : ℕ) (assigned : Finset ℕ) (communities : List (Finset ℕ)),
      ∃ app : List (Finset ℕ),
        dbscanLoop corePts coreN noncoreN n innerFuel fuel assigned
          communities = (assigned ∪ listUnion app, communities ++ app) ∧
        (∀ c ∈ app, Disjoint c assigned) ∧
        List.Pairwise Disjoint app ∧
        listUnion app ⊆ corePtsKeys corePts ∪
          (corePtsKeys corePts).biUnion (fun b => noncoreN b ∪ coreN b) := by
  intro fuel
  induction fuel with
  | zero =>
    intro assigned communities
    refine ⟨[], by simp [dbscanLoop, listUnion], by simp, by simp, by
      simp [listUnion]⟩
  | succ fuel ih =>
    intro assigned communities
    by_cases hcn : (pickCenter corePts assigned n).1 = n
    · refine ⟨[], by simp [dbscanLoop, hcn, listUnion], by simp, by simp, by
        simp [listUnion]⟩
    · rcases pickCenter_spec corePts assigned n with h1 | ⟨p, hp, hpa, he⟩
      · exact absurd (by rw [h1]) hcn
      · have hpK : p.1 ∈ corePtsKeys corePts := by
          rw [corePtsKeys, List.mem_toFinset]
          exact List.mem_map.mpr ⟨p, hp, rfl⟩
        obtain ⟨extra, hbfs, hdis, hsubU⟩ := bfsExpand_spec coreN noncoreN
          (corePtsKeys corePts) hcN innerFuel (insert p.1 assigned) {p.1}
          {p.1} (Finset.singleton_subset_iff.mpr hpK)
        obtain ⟨app2, hrec, hd2, hpw2, hsub2⟩ := ih
          (insert p.1 assigned ∪ extra) (communities ++ [{p.1} ∪ extra])
        have hp1n : p.1 ≠ n := by
          rw [he] at hcn
          simpa using hcn
        have hstep : dbscanLoop corePts coreN noncoreN n innerFuel
            (fuel + 1) assigned communities =
            dbscanLoop corePts coreN noncoreN n innerFuel fuel
              (insert p.1 assigned ∪ extra)
              (communities ++ [{p.1} ∪ extra]) := by
          rw [dbscanLoop]
          simp [he, hbfs, hp1n]
        have hcf_sub : ({p.1} ∪ extra : Finset ℕ) ⊆
            insert p.1 assigned ∪ extra := by
          rw [Finset.union_subset_iff]
          exact ⟨subset_trans (Finset.singleton_subset_iff.mpr
              (Finset.mem_insert_self p.1 assigned))
              Finset.subset_union_left, Finset.subset_union_right⟩
        refine ⟨({p.1} ∪ extra) :: app2, ?_, ?_, ?_, ?_⟩
        · rw [hstep, hrec, Prod.mk.injEq]
          refine ⟨?_, by simp⟩
          ext x
          simp only [show listUnion (({p.1} ∪ extra) :: app2) =
              ({p.1} ∪ extra) ∪ listUnion app2 from rfl, Finset.mem_union,
            Finset.mem_insert, Finset.mem_singleton]
          tauto
        · intro c hc
          rcases List.mem_cons.mp hc with hc | hc
          · subst hc
            rw [Finset.disjoint_union_left]
            exact ⟨Finset.disjoint_singleton_left.mpr hpa,
              (hdis.mono_right (Finset.subset_insert p.1 assigned))⟩
          · exact (hd2 c hc).mono_right
              (subset_trans (Finset.subset_insert p.1 assigned)
                Finset.subset_union_left)
        · refine List.Pairwise.cons ?_ hpw2
          intro c hc
          exact ((hd2 c hc).mono_right hcf_sub).symm
        · rw [show listUnion (({p.1} ∪ extra) :: app2) =
              ({p.1} ∪ extra) ∪ listUnion app2 from rfl]
          rw [Finset.union_subset_iff, Finset.union_subset_iff]
          exact ⟨⟨subset_trans (Finset.singleton_subset_iff.mpr hpK)
              Finset.subset_union_left,
            subset_trans hsubU Finset.subset_union_right⟩, hsub2⟩

theorem alookup_cond_range_map {α : Type} (p : ℕ → Prop) [DecidablePred p]
    (h : ℕ → α) (n k : ℕ) :
    alookup ((List.range n).filterMap (fun u =>
      if p u then none else some (u, h u))) k =
      if k < n ∧ ¬ p k then some (h k) else none := by
  induction n with
  | zero => simp [alookup]
  | succ n ih =>
    rw [List.range_succ, List.filterMap_append, alookup_append, ih]
    have hsingle : alookup (List.filterMap
        (fun u => if p u then none else some (u, h u)) [n]) k =
        if k = n ∧ ¬ p n then some (h n) else none := by
      by_cases hpn : p n
      · simp [List.filterMap_cons, hpn, alookup]
      · by_cases hkn : n = k
        · subst hkn
          simp [List.filterMap_cons, hpn, alookup]
        · simp [List.filterMap_cons, hpn, alookup, hkn,
            (show ¬ k = n from fun hh => hkn hh.symm)]
    rw [hsingle]
    by_cases hk : k < n
    · have hk1 : k < n + 1 := Nat.lt_succ_of_lt hk
      have hkn : ¬ k = n := Nat.ne_of_lt hk
      by_cases hp : p k
      · simp [hk, hp, hkn]
      · simp [hk, hp, hk1]
    · by_cases hkn : k = n
      · subst hkn
        by_cases hp : p k <;> simp [hk, hp, Nat.lt_succ_self]
      · have hk1 : ¬ k < n + 1 := by omega
        simp [hk, hkn, hk1]

theorem keys_filterMap_cond_range {α : Type} (p : ℕ → Prop) [DecidablePred p]
    (h : ℕ → α) (n : ℕ) :
    ((List.range n).filterMap (fun u =>
      if p u then none else some (u, h u))).map Prod.fst =
      (List.range n).filter (fun u => ¬ p u) := by
  induction n with
  | zero => simp
  | succ n ih =>
    rw [List.range_succ, List.filterMap_append, List.map_append, ih,
      List.filter_append]
    by_cases hp : p n <;> simp [List.filterMap_cons, hp]

theorem induce_alookup (cm : ConcurrenceModel) (u : ℕ) :
    alookup (InduceSimilarities cm) u =
      if u < cm.n ∧ ¬ (cm.GetConcurrencesOf u).length = 0 then
        some ((u, 1) :: (cm.GetConcurrencesOf u).map (fun q =>
          (q.1, (q.2 : ℚ) * (1 / 2 / (cm.sumConcurrencesOf u : ℚ) +
            1 / 2 / (cm.sumConcurrencesOf q.1 : ℚ)))))
      else none :=
  alookup_cond_range_map (fun u => (cm.GetConcurrencesOf u).length = 0) _
    cm.n u

theorem induce_keys (cm : ConcurrenceModel) :
    (InduceSimilarities cm).map Prod.fst =
      (List.range cm.n).filter
        (fun u => ¬ (cm.GetConcurrencesOf u).length = 0) :=
  keys_filterMap_cond_range (fun u => (cm.GetConcurrencesOf u).length = 0) _
    cm.n

theorem induce_keys_nodup (cm : ConcurrenceModel) :
    ((InduceSimilarities cm).map Prod.fst).Nodup := by
  rw [induce_keys]
  exact (List.nodup_range cm.n).filter _

/-- Closure of the plain similarity matrix of a valid graph: every neighbor
id appearing in a stored row is itself a key of the matrix. -/
theorem induce_closed (cm : ConcurrenceModel)
    (hsym : SymmetricMap cm.concurrences)
    (hbound : RefIdsBound cm.concurrences cm.n) :
    ∀ u r, alookup (InduceSimilarities cm) u = some r →
      ∀ q ∈ r, q.1 ∈ (InduceSimilarities cm).map Prod.fst := by
  intro u r hur q hq
  rw [induce_alookup] at hur
  by_cases hc : u < cm.n ∧ ¬ (cm.GetConcurrencesOf u).length = 0
  swap
  · rw [if_neg hc] at hur
    exact absurd hur (by simp)
  rw [if_pos hc] at hur
  have hr := Option.some.inj hur
  rcases List.mem_cons.mp (hr ▸ hq) with hq1 | hq1
  · rw [induce_keys, hq1]
    exact List.mem_filter.mpr ⟨List.mem_range.mpr hc.1, by simpa using hc.2⟩
  · obtain ⟨qq, hqq, rfl⟩ := List.mem_map.mp hq1
    have hrowu : ∃ rowu, alookup cm.concurrences u = some rowu ∧ qq ∈ rowu := by
      unfold ConcurrenceModel.GetConcurrencesOf at hqq
      cases hru : alookup cm.concurrences u with
      | none =>
        rw [hru] at hqq
        simp at hqq
      | some rowu =>
        rw [hru] at hqq
        exact ⟨rowu, rfl, by simpa using hqq⟩
    obtain ⟨rowu, hru, hqqr⟩ := hrowu
    have hs := hsym (u, rowu) (alookup_mem hru) qq hqqr
    cases hrv : alookup cm.concurrences qq.1 with
    | none =>
      rw [hrv] at hs
      simp at hs
    | some rowv =>
      rw [hrv] at hs
      simp only [Option.some_bind] at hs
      have hvlt : qq.1 < cm.n := (hbound (u, rowu) (alookup_mem hru)).2 qq hqqr
      have hne : ¬ (cm.GetConcurrencesOf qq.1).length = 0 := by
        unfold ConcurrenceModel.GetConcurrencesOf
        rw [hrv]
        simp only [Option.getD_some]
        have hm := alookup_mem hs
        intro hlen
        rw [List.length_eq_zero] at hlen
        rw [hlen] at hm
        simp at hm
      rw [induce_keys]
      exact List.mem_filter.mpr ⟨List.mem_range.mpr hvlt, by simpa using hne⟩

theorem getCorePoints_rows (simMat : List (ℕ × List (ℕ × ℚ))) (eps : ℚ)
    (minPts : ℕ) (corePts : List (ℕ × ℕ))
    (h : getCorePoints simMat eps minPts = some corePts) :
    ∀ p ∈ corePts, p.1 ∈ simMat.map Prod.fst := by
  unfold getCorePoints at h
  by_cases hall : ∀ pt ∈ List.range simMat.length, (alookup simMat pt).isSome
  · rw [if_pos hall] at h
    have h2 := Option.some.inj h
    intro p hp
    rw [← h2] at hp
    obtain ⟨pt, hpt, hpe⟩ := List.mem_filterMap.mp hp
    by_cases hd : (((alookup simMat pt).getD []).filter
        (fun q => q.2 + eps ≥ 1)).length ≥ minPts
    · simp only [hd, if_true] at hpe
      rw [← alookup_isSome_iff_mem]
      rw [show p.1 = pt from by rw [← Option.some.inj hpe]]
      exact hall pt hpt
    · simp only [hd, if_false] at hpe
      exact absurd hpe (by simp)
  · rw [if_neg hall] at h
    exact absurd h (by simp)

theorem coreNeighbors_sub_keys (simMat : List (ℕ × List (ℕ × ℚ))) (eps : ℚ)
    (corePts : List (ℕ × ℕ)) (b : ℕ) :
    coreNeighbors simMat eps corePts b ⊆ corePtsKeys corePts := by
  intro x hx
  unfold coreNeighbors at hx
  rw [List.mem_toFinset] at hx
  obtain ⟨q, hq, rfl⟩ := List.mem_map.mp hx
  have hcond := List.of_mem_filter hq
  simp only [decide_eq_true_eq] at hcond
  rw [corePtsKeys, List.mem_toFinset, ← alookup_isSome_iff_mem]
  exact hcond.2.2

theorem neighbors_sub_simKeys (simMat : List (ℕ × List (ℕ × ℚ))) (eps : ℚ)
    (corePts : List (ℕ × ℕ))
    (hclose : ∀ u r, alookup simMat u = some r →
      ∀ q ∈ r, q.1 ∈ simMat.map Prod.fst) (b : ℕ) :
    coreNeighbors simMat eps corePts b ∪ noncoreNeighbors simMat eps corePts
      b ⊆ (simMat.map Prod.fst).toFinset := by
  intro x hx
  rw [Finset.mem_union] at hx
  have hq : ∃ q, q ∈ ((alookup simMat b).getD []) ∧ q.1 = x := by
    rcases hx with hx | hx
    · unfold coreNeighbors at hx
      rw [List.mem_toFinset] at hx
      obtain ⟨q, hq, rfl⟩ := List.mem_map.mp hx
      exact ⟨q, List.mem_of_mem_filter hq, rfl⟩
    · unfold noncoreNeighbors at hx
      rw [List.mem_toFinset] at hx
      obtain ⟨q, hq, rfl⟩ := List.mem_map.mp hx
      exact ⟨q, List.mem_of_mem_filter hq, rfl⟩
  obtain ⟨q, hq, rfl⟩ := hq
  cases hrb : alookup simMat b with
  | none =>
    rw [hrb] at hq
    simp [alookup] at hq
  | some r =>
    rw [hrb] at hq
    simp only [Option.getD_some] at hq
    rw [List.mem_toFinset]
    exact hclose b r hrb q hq

theorem countP_eq_one_of_mem {u : ℕ} :
    ∀ {l : List (Finset ℕ)}, List.Pairwise Disjoint l →
      ∀ c ∈ l, u ∈ c → l.countP (fun c => u ∈ c) = 1 := by
  intro l
  induction l with
  | nil =>
    intro _ c hc
    simp at hc
  | cons d t ih =>
    intro hpw c hc hu
    rw [List.countP_cons]
    rcases List.mem_cons.mp hc with hc1 | hc1
    · subst hc1
      have ht0 : t.countP (fun e => u ∈ e) = 0 := by
        rw [List.countP_eq_zero]
        intro e he
        simp only [decide_eq_true_eq]
        exact fun hue => (Finset.disjoint_left.mp
          ((List.pairwise_cons.mp hpw).1 e he)) hu hue
      simp [ht0, hu]
    · have h1 := ih (List.pairwise_cons.mp hpw).2 c hc1 hu
      have hd : u ∉ d := fun hud => (Finset.disjoint_left.mp
        ((List.pairwise_cons.mp hpw).1 c hc1)) hud hu
      simp [h1, hd]

/-- C5 (amended): for a valid (symmetric, in-range) graph, whenever the
plain-similarity DBScan returns, (1) the returned clusters are pairwise
disjoint, (2) a node appears in exactly one returned cluster iff it is
present in the plain similarity matrix (isolated nodes are omitted from the
matrix and hence from the output), and (3) every matrix node that is not a
core point and is not a neighbor of any core point is returned as its own
singleton cluster. -/
theorem dbscan_plain_spec (cm : ConcurrenceModel) (eps : ℚ) (minPts : ℕ)
    (hsym : SymmetricMap cm.concurrences)
    (hbound : RefIdsBound cm.concurrences cm.n)
    (corePts : List (ℕ × ℕ))
    (hcore : getCorePoints (InduceSimilarities cm) eps minPts = some corePts)
    (cs : List (Finset ℕ)) (hrun : cm.DBScan eps minPts = some cs) :
    List.Pairwise Disjoint cs ∧
    (∀ u, cs.countP (fun c => u ∈ c) = 1 ↔
      u ∈ (InduceSimilarities cm).map Prod.fst) ∧
    (∀ u, u ∈ (InduceSimilarities cm).map Prod.fst →
      u ∉ corePtsKeys corePts →
      (∀ b ∈ corePtsKeys corePts,
        u ∉ coreNeighbors (InduceSimilarities cm) eps corePts b ∧
        u ∉ noncoreNeighbors (InduceSimilarities cm) eps corePts b) →
      {u} ∈ cs) := by
  obtain ⟨app, happ, hdis0, hpw, hsubKU⟩ := dbscanLoop_spec corePts
    (coreNeighbors (InduceSimilarities cm) eps corePts)
    (noncoreNeighbors (InduceSimilarities cm) eps corePts)
    cm.GetN (cm.GetN + 1)
    (coreNeighbors_sub_keys (InduceSimilarities cm) eps corePts)
    (corePts.length + 1) ∅ []
  unfold ConcurrenceModel.DBScan at hrun
  rw [hcore] at hrun
  simp only [happ, Finset.empty_union, List.nil_append] at hrun
  have hcs : cs = app ++ (((InduceSimilarities cm).map Prod.fst).filter
      (fun pt => pt ∉ listUnion app)).map (fun pt => {pt}) :=
    (Option.some.inj hrun).symm
  set singles := (((InduceSimilarities cm).map Prod.fst).filter
    (fun pt => pt ∉ listUnion app)).map (fun pt => ({pt} : Finset ℕ))
    with hsdef
  have hKsub : corePtsKeys corePts ⊆
      ((InduceSimilarities cm).map Prod.fst).toFinset := by
    intro x hx
    rw [corePtsKeys, List.mem_toFinset] at hx
    obtain ⟨p, hp, rfl⟩ := List.mem_map.mp hx
    rw [List.mem_toFinset]
    exact getCorePoints_rows _ _ _ _ hcore p hp
  have hUsub : (corePtsKeys corePts).biUnion (fun b =>
      noncoreNeighbors (InduceSimilarities cm) eps corePts b ∪
      coreNeighbors (InduceSimilarities cm) eps corePts b) ⊆
      ((InduceSimilarities cm).map Prod.fst).toFinset := by
    intro x hx
    rw [Finset.mem_biUnion] at hx
    obtain ⟨b, hb, hxb⟩ := hx
    refine neighbors_sub_simKeys (InduceSimilarities cm) eps corePts
      (induce_closed cm hsym hbound) b ?_
    rw [Finset.mem_union] at hxb ⊢
    tauto
  have happKeys : listUnion app ⊆
      ((InduceSimilarities cm).map Prod.fst).toFinset :=
    subset_trans hsubKU (Finset.union_subset hKsub hUsub)
  have hsingles_pw : List.Pairwise Disjoint singles := by
    rw [hsdef, List.pairwise_map]
    have h1 : List.Pairwise (fun a b => a ≠ b)
        (((InduceSimilarities cm).map Prod.fst).filter
          (fun pt => pt ∉ listUnion app)) :=
      List.Nodup.filter _ (induce_keys_nodup cm)
    exact h1.imp (fun hab => Finset.disjoint_singleton.mpr hab)
  have hcross : ∀ c ∈ app, ∀ s ∈ singles, Disjoint c s := by
    intro c hc s hs
    rw [hsdef] at hs
    obtain ⟨pt, hptf, rfl⟩ := List.mem_map.mp hs
    have hpt : pt ∉ listUnion app := by
      simpa using List.of_mem_filter hptf
    exact Finset.disjoint_singleton_right.mpr
      (fun hptc => hpt (mem_listUnion.mpr ⟨c, hc, hptc⟩))
  have hpart1 : List.Pairwise Disjoint cs := by
    rw [hcs, List.pairwise_append]
    exact ⟨hpw, hsingles_pw, hcross⟩
  refine ⟨hpart1, ?_, ?_⟩
  · intro u
    rw [hcs, List.countP_append]
    by_cases hk : u ∈ (InduceSimilarities cm).map Prod.fst
    · by_cases ha : u ∈ listUnion app
      · obtain ⟨c, hc, huc⟩ := mem_listUnion.mp ha
        have h1 : app.countP (fun c => u ∈ c) = 1 :=
          countP_eq_one_of_mem hpw c hc huc
        have h2 : singles.countP (fun c => u ∈ c) = 0 := by
          rw [List.countP_eq_zero]
          intro s hs
          rw [hsdef] at hs
          obtain ⟨pt, hptf, rfl⟩ := List.mem_map.mp hs
          have hpt : pt ∉ listUnion app := by
            simpa using List.of_mem_filter hptf
          simp only [decide_eq_true_eq, Finset.mem_singleton]
          rintro rfl
          exact hpt ha
        rw [h1, h2]
        simpa using hk
      · have h1 : app.countP (fun c => u ∈ c) = 0 := by
          rw [List.countP_eq_zero]
          intro c hc
          simp only [decide_eq_true_eq]
          exact fun huc => ha (mem_listUnion.mpr ⟨c, hc, huc⟩)
        have hmem : ({u} : Finset ℕ) ∈ singles := by
          rw [hsdef]
          exact List.mem_map.mpr ⟨u, List.mem_filter.mpr
            ⟨hk, by simpa using ha⟩, rfl⟩
        have h2 : singles.countP (fun c => u ∈ c) = 1 :=
          countP_eq_one_of_mem hsingles_pw {u} hmem
            (Finset.mem_singleton_self u)
        rw [h1, h2]
        simpa using hk
    · have h1 : app.countP (fun c => u ∈ c) = 0 := by
        rw [List.countP_eq_zero]
        intro c hc
        simp only [decide_eq_true_eq]
        intro huc
        have := happKeys (mem_listUnion.mpr ⟨c, hc, huc⟩)
        rw [List.mem_toFinset] at this
        exact hk this
      have h2 : singles.countP (fun c => u ∈ c) = 0 := by
        rw [List.countP_eq_zero]
        intro s hs
        rw [hsdef] at hs
        obtain ⟨pt, hptf, rfl⟩ := List.mem_map.mp hs
        simp only [decide_eq_true_eq, Finset.mem_singleton]
        rintro rfl
        exact hk (List.mem_of_mem_filter hptf)
      rw [h1, h2]
      simpa using hk
  · intro u hk hnotK hnonbr
    have hU : u ∉ (corePtsKeys corePts).biUnion (fun b =>
        noncoreNeighbors (InduceSimilarities cm) eps corePts b ∪
        coreNeighbors (InduceSimilarities cm) eps corePts b) := by
      rw [Finset.mem_biUnion]
      rintro ⟨b, hb, hub⟩
      rw [Finset.mem_union] at hub
      rcases hub with h | h
      · exact (hnonbr b hb).2 h
      · exact (hnonbr b hb).1 h
    have ha : u ∉ listUnion app := by
      intro hu
      have := hsubKU hu
      rw [Finset.mem_union] at this
      rcases this with h | h
      · exact hnotK h
      · exact hU h
    rw [hcs]
    refine List.mem_append.mpr (Or.inr ?_)
    rw [hsdef]
    exact List.mem_map.mpr ⟨u, List.mem_filter.mpr ⟨hk, by simpa using ha⟩,
      rfl⟩

/-- Witness for C5: `dbscan_plain_spec` applied to the 2-node edgeless
graph (whose plain similarity matrix is empty, so DBScan returns no
clusters and the exactly-once property is vacuous for node 0). -/
theorem dbscan_plain_spec_witness :
    List.Pairwise Disjoint ([] : List (Finset ℕ)) ∧
    (([] : List (Finset ℕ)).countP (fun c => (0 : ℕ) ∈ c) = 1 ↔
      (0 : ℕ) ∈ (InduceSimilarities ⟨2, []⟩).map Prod.fst) := by
  have h := dbscan_plain_spec ⟨2, []⟩ 0 37 (by decide) (by decide) []
    (by decide) [] (by decide)
  exact ⟨h.1, h.2.1 0⟩

end DBC
